import Mathlib

/-!
Verification development for the FRA gluing pipeline
(`fra_pipeline/scripts/fra_gluing_algorithm.py`).

The core of the program is embedded shallowly:

* dictionaries keyed by small integer ids become association lists or
  functions `ℕ → _`, with an explicit key set where key presence is
  observable (`build_district_adjacency`);
* Python `int` becomes `ℤ` (counts, votes, target sizes), vote shares
  become `ℚ`;
* the global `random` generator becomes an explicitly threaded state
  `st : ℕ` together with an arbitrary generator function
  `pick : ℕ → ℕ × ℕ` (state ↦ raw draw × next state) and a seeding
  function `seedFn : ℤ → ℕ` modelling `random.seed`; every theorem holds
  for all `pick`/`seedFn`, which covers the Mersenne Twister used by
  CPython;
* `raise ValueError` becomes `Except String`, and the aggregate error of
  `glue_districts_greedy` becomes the dedicated type `GlueError`;
* the two unbounded `while` loops (group growth, BFS) take an explicit
  fuel argument chosen at each call site to exceed the maximum possible
  number of iterations (each iteration strictly consumes an element of a
  finite set), so the fuel-exhausted branches are unreachable.
-/

namespace FRA

/-- The ascending list of members of a finite set of naturals.  This models
the iteration order of a CPython `set` of small non-negative ints
(`list(s)`, `next(iter(s))`, `for start in unused`), which is ascending for
the district ids in play. -/
def toAscList (s : Finset ℕ) : List ℕ :=
  (List.range (s.sup id + 1)).filter (fun x => x ∈ s)

/-- Model of `random.choice(lst)` (fra_gluing_algorithm.py:331,350): draw a raw
number from the generator state and select an element of the list by reducing
it modulo the list length.  On the empty list (never reached: both call sites
guard against it) it returns the default `0`. -/
def randomChoice (pick : ℕ → ℕ × ℕ) (st : ℕ) (l : List ℕ) : ℕ × ℕ :=
  (l.getD ((pick st).1 % l.length) 0, (pick st).2)

/-- The queue-based breadth-first search shared by `is_connected`
(fra_gluing_algorithm.py:185-198) and the component search of
`can_satisfy_remaining` (fra_gluing_algorithm.py:230-241): repeatedly pop the
front of the queue, and move every neighbour that is in `allowed` and not yet
visited into `visited` and onto the back of the queue.  `fuel` bounds the
number of pops; every call site passes fuel exceeding the maximum possible
number of pops (each pop either shrinks the queue or consumes a fresh element
of `allowed`), so the `0` branch is unreachable there. -/
def bfsAux (adj : ℕ → Finset ℕ) (allowed : Finset ℕ) :
    ℕ → List ℕ → Finset ℕ → Finset ℕ
  | 0, _, visited => visited
  | _ + 1, [], visited => visited
  | fuel + 1, c :: queue, visited =>
    bfsAux adj allowed fuel
      (queue ++ toAscList ((adj c).filter (fun x => x ∈ allowed ∧ x ∉ visited)))
      (visited ∪ (adj c).filter (fun x => x ∈ allowed ∧ x ∉ visited))

/-- `is_connected(districts, district_adj)` (fra_gluing_algorithm.py:169-201):
the empty set is connected; otherwise BFS from a member and compare the number
of visited districts with the size of the set.  `district_adj.get(d, set())`
is the function `adj`. -/
def isConnected (districts : Finset ℕ) (adj : ℕ → Finset ℕ) : Bool :=
  match toAscList districts with
  | [] => true
  | start :: _ =>
    (bfsAux adj districts (districts.card + 1) [start] {start}).card = districts.card

/-- The set of districts found by a fresh BFS from `d` restricted to
`allowed`; below it is proven to be exactly the connected component of `d`
(its reachability class).  Used to state the characterization of
`can_satisfy_remaining`. -/
def compOf (adj : ℕ → Finset ℕ) (allowed : Finset ℕ) (d : ℕ) : Finset ℕ :=
  bfsAux adj allowed (allowed.card + 1) [d] {d}

/-- The component-collection loop of `can_satisfy_remaining`
(fra_gluing_algorithm.py:222-243): iterate over the unused districts (a Python
set of small ints, modelled in ascending order), skipping districts already
visited, and otherwise BFS from the district; the freshly visited districts
form the next component.  The `visited` set is global across components, as in
the source.
The loop body: `acc` carries the component list so far together with the
global visited set; an unvisited `start` contributes the districts its BFS
freshly visits as one component. -/
def componentStep (adj : ℕ → Finset ℕ) (unused : Finset ℕ)
    (acc : List (Finset ℕ) × Finset ℕ) (start : ℕ) :
    List (Finset ℕ) × Finset ℕ :=
  if start ∈ acc.2 then acc
  else
    (acc.1 ++ [bfsAux adj unused (unused.card + 1) [start] (insert start acc.2) \ acc.2],
      bfsAux adj unused (unused.card + 1) [start] (insert start acc.2))

/-- The component list of `can_satisfy_remaining`
(fra_gluing_algorithm.py:222-243). -/
def findComponents (adj : ℕ → Finset ℕ) (unused : Finset ℕ) : List (Finset ℕ) :=
  ((toAscList unused).foldl (componentStep adj unused)
    (([], ∅) : List (Finset ℕ) × Finset ℕ)).1

/-- `can_satisfy_remaining(unused, district_adj, remaining_sizes)`
(fra_gluing_algorithm.py:204-258): with no remaining sizes, feasible iff no
district is unused; otherwise compare the total of the component sizes with
the total of the remaining sizes (both sorted descending, as in the source)
and require the largest component to fit the largest remaining size. -/
def canSatisfyRemaining (unused : Finset ℕ) (adj : ℕ → Finset ℕ)
    (remainingSizes : List ℤ) : Bool :=
  if remainingSizes = [] then unused.card = 0
  else
    if (((List.insertionSort (· ≥ ·) ((findComponents adj unused).map Finset.card)).sum : ℤ)
        ≠ (List.insertionSort (· ≥ ·) remainingSizes).sum) then false
    else
      match List.insertionSort (· ≥ ·) ((findComponents adj unused).map Finset.card),
          List.insertionSort (· ≥ ·) remainingSizes with
      | c0 :: _, r0 :: _ => if (c0 : ℤ) < r0 then false else true
      | _, _ => true

/-- The growth loop of `_try_gluing` (fra_gluing_algorithm.py:336-352): while
the group is smaller than the target size, collect the unused districts
adjacent to the group; abort if there are none, otherwise move a random
candidate from `unused` into the group.  `fuel` bounds the iterations; call
sites pass `unused.card + 1`, which exceeds the maximum number of iterations
(each iteration moves one district out of `unused`). -/
def growGroup (pick : ℕ → ℕ × ℕ) (adj : ℕ → Finset ℕ) (target : ℤ) :
    ℕ → Finset ℕ → Finset ℕ → ℕ → Except String (Finset ℕ × Finset ℕ × ℕ)
  | 0, _, _, _ => .error "out of fuel"
  | fuel + 1, group, unused, st =>
    if (group.card : ℤ) < target then
      let candidates := group.biUnion (fun d => (adj d).filter (fun x => x ∈ unused))
      let cl := toAscList candidates
      if cl = [] then
        .error "Cannot expand super-district - no adjacent districts available!"
      else
        growGroup pick adj target fuel
          (insert (randomChoice pick st cl).1 group)
          (unused.erase (randomChoice pick st cl).1)
          (randomChoice pick st cl).2
    else .ok (group, unused, st)

/-- The per-super-district loop of `_try_gluing`
(fra_gluing_algorithm.py:323-367): for each target size, abort if no district
is unused, pick a random unused seed district, grow the group to the target
size, verify contiguity, verify forward feasibility for the remaining
targets, and commit the group to the current super-district id. -/
def glueSupers (pick : ℕ → ℕ × ℕ) (adj : ℕ → Finset ℕ) :
    List ℤ → ℕ → Finset ℕ → (ℕ → Option ℕ) → ℕ → Except String (ℕ → Option ℕ)
  | [], _, _, assigned, _ => .ok assigned
  | t :: rest, superId, unused, assigned, st =>
    if unused = ∅ then .error "Ran out of districts!"
    else
      let ul := toAscList unused
      let seedD := (randomChoice pick st ul).1
      let st1 := (randomChoice pick st ul).2
      match growGroup pick adj t ((unused.erase seedD).card + 1)
          {seedD} (unused.erase seedD) st1 with
      | .error e => .error e
      | .ok (group, unused2, st2) =>
        if isConnected group adj then
          if canSatisfyRemaining unused2 adj rest then
            glueSupers pick adj rest (superId + 1) unused2
              (fun d => if d ∈ group then some superId else assigned d) st2
          else .error "Remaining districts cannot satisfy remaining targets!"
        else .error "Super-district is not contiguous!"

/-- `_try_gluing(district_adj, target_sizes, num_districts, seed)`
(fra_gluing_algorithm.py:301-371): re-seed the generator (`random.seed(seed)`
at line 314 — the incoming ambient generator state `stIn` is discarded), start
with all of `0..num_districts-1` unused and an empty assignment, and build the
super-districts in order. -/
def tryGluing (pick : ℕ → ℕ × ℕ) (seedFn : ℤ → ℕ) (stIn : ℕ)
    (adj : ℕ → Finset ℕ) (targetSizes : List ℤ) (numDistricts : ℕ) (seed : ℤ) :
    Except String (ℕ → Option ℕ) :=
  let _ := stIn
  glueSupers pick adj targetSizes 0 (Finset.range numDistricts)
    (fun _ => none) (seedFn seed)

/-- The single error kind `glue_districts_greedy` can raise
(fra_gluing_algorithm.py:298): the aggregate infeasibility `ValueError`,
carrying the message and, via `raise ... from e`, the last attempt's failure
reason. -/
inductive GlueError where
  | infeasible (msg : String) (cause : String)
deriving DecidableEq

/-- The hard-coded attempt bound `max_attempts = 100`
(fra_gluing_algorithm.py:288). -/
def maxAttempts : ℕ := 100

/-- The message of the aggregate error (fra_gluing_algorithm.py:298). -/
def infeasibleMsg : String := "Could not find valid grouping after 100 attempts"

/-- The retry loop of `glue_districts_greedy` (fra_gluing_algorithm.py:290-298):
attempt `a` calls `_try_gluing` with derived seed `seed + a`; on success return
its result, on failure retry while attempts remain, and after the final
attempt raise the aggregate error carrying the last failure.  `stG` is the
ambient generator state (discarded by each attempt's re-seed).  The `0` fuel
branch is unreachable from `glueDistrictsGreedy` (it starts with
`maxAttempts > 0` remaining). -/
def glueLoop (pick : ℕ → ℕ × ℕ) (seedFn : ℤ → ℕ) (stG : ℕ)
    (adj : ℕ → Finset ℕ) (targetSizes : List ℤ) (numDistricts : ℕ) (seed : ℤ) :
    ℕ → ℕ → Except GlueError (ℕ → Option ℕ)
  | _, 0 => .error (.infeasible infeasibleMsg "")
  | attempt, rem + 1 =>
    match tryGluing pick seedFn stG adj targetSizes numDistricts
        (seed + (attempt : ℤ)) with
    | .ok result => .ok result
    | .error e =>
      if rem = 0 then .error (.infeasible infeasibleMsg e)
      else glueLoop pick seedFn stG adj targetSizes numDistricts seed (attempt + 1) rem

/-- `glue_districts_greedy(district_adj, target_sizes, num_districts, seed)`
(fra_gluing_algorithm.py:261-298): seed the global generator
(`random.seed(seed)` at line 285 — this replaces the ambient state `g0`, which
is therefore never read) and run the attempt loop. -/
def glueDistrictsGreedy (pick : ℕ → ℕ × ℕ) (seedFn : ℤ → ℕ) (g0 : ℕ)
    (adj : ℕ → Finset ℕ) (targetSizes : List ℤ) (numDistricts : ℕ) (seed : ℤ) :
    Except GlueError (ℕ → Option ℕ) :=
  let _ := g0
  let st := seedFn seed
  glueLoop pick seedFn st adj targetSizes numDistricts seed 0 maxAttempts

/-- Boolean view of an `Except` being in its error case. -/
def exceptIsError : Except ε α → Bool
  | .error _ => true
  | .ok _ => false

/-- One step between districts inside `allowed`: the target is a neighbour of
the source and lies in `allowed` (the BFS loops only ever test membership of
the *target*: `if neighbor in districts and neighbor not in visited`). -/
def stepRel (adj : ℕ → Finset ℕ) (allowed : Finset ℕ) (a b : ℕ) : Prop :=
  b ∈ adj a ∧ b ∈ allowed

/-- Reachability inside `allowed`: the reflexive-transitive closure of
`stepRel`.  `compOf adj allowed d` is proven below to be exactly
`{e | Reach adj allowed d e}`. -/
def Reach (adj : ℕ → Finset ℕ) (allowed : Finset ℕ) (a b : ℕ) : Prop :=
  Relation.ReflTransGen (stepRel adj allowed) a b

/-- Union of a list of finite sets (the components found by
`findComponents` partition the unused set). -/
def unionComps (cs : List (Finset ℕ)) : Finset ℕ :=
  cs.foldr (· ∪ ·) ∅

/-- The invariants claimed for a successful gluing result over
`0..numDistricts-1` with targets `ts`: each super-district id `k < ts.length`
receives exactly `ts[k]` districts and they pass `is_connected`; every
district id below `numDistricts` is mapped to exactly one super-district id
below `ts.length`; no other id is mapped. -/
def GluingInvariants (adj : ℕ → Finset ℕ) (ts : List ℤ) (numDistricts : ℕ)
    (result : ℕ → Option ℕ) : Prop :=
  (∀ k (hk : k < ts.length),
    (((Finset.range numDistricts).filter (fun d => result d = some k)).card : ℤ)
        = ts.get ⟨k, hk⟩ ∧
    isConnected ((Finset.range numDistricts).filter (fun d => result d = some k)) adj
        = true) ∧
  (∀ d, d < numDistricts → ∃ k, k < ts.length ∧ result d = some k) ∧
  (∀ d k k2, result d = some k → result d = some k2 → k = k2) ∧
  (∀ d, numDistricts ≤ d → result d = none)

/-! ### District adjacency construction (`build_district_adjacency`) -/

/-- The `defaultdict(set)` built by `build_district_adjacency`
(fra_gluing_algorithm.py:142): `keys` is the set of district ids actually
present in the dict and `nbrs` its per-district neighbour sets (empty for
absent keys).  All downstream reads go through `district_adj.get(d, set())`,
which is the function `nbrs`. -/
structure DistAdjDict where
  keys : Finset ℕ
  nbrs : ℕ → Finset ℕ

/-- One `district_adj[a].add(b)` on a `defaultdict(set)`: accessing key `a`
creates it, then `b` is added to its set. -/
def addDirected (da : DistAdjDict) (a b : ℕ) : DistAdjDict :=
  ⟨insert a da.keys, fun d => if d = a then insert b (da.nbrs d) else da.nbrs d⟩

/-- `build_district_adjacency(precinct_adj, assignment)`
(fra_gluing_algorithm.py:126-162): for every precinct and each of its
neighbours, if the two precincts lie in different districts, add the edge in
both directions.  `precinctAdj` is the items of the precinct-adjacency dict in
insertion order; `assignment` is the total precinct → district map. -/
def buildDistrictAdjacency (precinctAdj : List (ℕ × List ℕ))
    (assignment : ℕ → ℕ) : DistAdjDict :=
  precinctAdj.foldl
    (fun da pr =>
      pr.2.foldl
        (fun da2 nb =>
          if assignment pr.1 ≠ assignment nb then
            addDirected (addDirected da2 (assignment pr.1) (assignment nb))
              (assignment nb) (assignment pr.1)
          else da2)
        da)
    ⟨∅, fun _ => ∅⟩

/-- District `d` has an edge to a different district somewhere in the
precinct adjacency: some listed precinct pair crosses district lines with `d`
on one side. -/
def HasCrossEdge (precinctAdj : List (ℕ × List ℕ)) (assignment : ℕ → ℕ)
    (d : ℕ) : Prop :=
  ∃ pr ∈ precinctAdj, ∃ nb ∈ pr.2,
    assignment pr.1 ≠ assignment nb ∧ (assignment pr.1 = d ∨ assignment nb = d)

/-! ### Aggregation (`aggregate_precincts_to_superdistricts`) -/

/-- A precinct record from the shapefile (fra_gluing_algorithm.py:413-417):
its id (`gdf` index) and its `G24PREDHAR`, `G24PRERTRU` and `TOTPOP` columns
as Python ints. -/
structure BaseUnit where
  id : ℕ
  dem : ℤ
  rep : ℤ
  pop : ℤ
deriving DecidableEq

/-- The running totals of one super-district during aggregation
(fra_gluing_algorithm.py:403-408). -/
structure SuperAgg where
  demVotes : ℤ
  repVotes : ℤ
  population : ℤ
  precincts : List ℕ
deriving DecidableEq

/-- A finished super-district record (fra_gluing_algorithm.py:426-434). -/
structure SuperRecord where
  superdistrictId : ℕ
  demVotes : ℤ
  repVotes : ℤ
  population : ℤ
  demShare : ℚ
  numPrecincts : ℕ
  precincts : List ℕ
deriving DecidableEq

/-- First-match association-list lookup, modelling access to a Python dict
whose keys are distinct (as the keys of `precinct_to_super` are: one entry
per distinct precinct id of `assignment`). -/
def lookupFst : List (ℕ × ℕ) → ℕ → Option ℕ
  | [], _ => none
  | (k, v) :: rest, a => if k = a then some v else lookupFst rest a

/-- The `precinct_to_super` construction (fra_gluing_algorithm.py:397-400):
map each precinct of the baseline assignment through `district_to_super`; a
district id absent from the gluing result raises `KeyError` before any
aggregation happens. -/
def buildP2S (assignment : List (ℕ × ℕ)) (d2s : ℕ → Option ℕ) :
    Except String (List (ℕ × ℕ)) :=
  match assignment with
  | [] => .ok []
  | (p, d) :: rest =>
    match d2s d with
    | none => .error "KeyError: district missing from gluing result"
    | some s => (buildP2S rest d2s).map (fun l => (p, s) :: l)

/-- `defaultdict` accumulation of one precinct into its super-district
(fra_gluing_algorithm.py:415-418): update the existing entry or append a new
one initialised from zero. -/
def updateAgg (acc : List (ℕ × SuperAgg)) (sid : ℕ) (u : BaseUnit) :
    List (ℕ × SuperAgg) :=
  match acc with
  | [] => [(sid, ⟨u.dem, u.rep, u.pop, [u.id]⟩)]
  | (s, a) :: rest =>
    if s = sid then
      (s, ⟨a.demVotes + u.dem, a.repVotes + u.rep, a.population + u.pop,
        a.precincts ++ [u.id]⟩) :: rest
    else (s, a) :: updateAgg rest sid u

/-- The accumulation loop of `aggregate_precincts_to_superdistricts`
(fra_gluing_algorithm.py:410-418): precincts whose id is missing from
`precinct_to_super` are silently skipped. -/
def aggLoop (p2s : List (ℕ × ℕ)) (units : List BaseUnit) :
    List (ℕ × SuperAgg) :=
  units.foldl
    (fun acc u =>
      match lookupFst p2s u.id with
      | some sid => updateAgg acc sid u
      | none => acc)
    []

/-- The final record construction (fra_gluing_algorithm.py:421-434),
including the vote share, defined as `0` when no votes were cast. -/
def finalizeAgg (agg : List (ℕ × SuperAgg)) : List SuperRecord :=
  agg.map (fun x =>
    let total : ℤ := x.2.demVotes + x.2.repVotes
    let share : ℚ := if 0 < total then (x.2.demVotes : ℚ) / (total : ℚ) else 0
    ⟨x.1, x.2.demVotes, x.2.repVotes, x.2.population, share,
      x.2.precincts.length, x.2.precincts⟩)

/-- `aggregate_precincts_to_superdistricts(gdf, assignment, district_to_super)`
(fra_gluing_algorithm.py:378-445): build `precinct_to_super` (failing on a
district id missing from the gluing result), accumulate every precinct whose
id appears there, and finalize the records. -/
def aggregatePrecinctsToSuperdistricts (units : List BaseUnit)
    (assignment : List (ℕ × ℕ)) (d2s : ℕ → Option ℕ) :
    Except String (List SuperRecord) :=
  (buildP2S assignment d2s).map (fun p2s => finalizeAgg (aggLoop p2s units))

/-! ### Seat allocation (`allocate_seats_proportionally`) -/

/-- CPython's built-in `round` on a real value, which rounds half to even
(banker's rounding): values with fractional part below one half round down,
above one half round up, and exact halves round to the even neighbour.
Modelled over `ℚ`; at the half-integer inputs considered in the claims the
float product is exact, so the rational model agrees with the float one. -/
def pyRound (q : ℚ) : ℤ :=
  if q - ⌊q⌋ < 1/2 then ⌊q⌋
  else if 1/2 < q - ⌊q⌋ then ⌊q⌋ + 1
  else if ⌊q⌋ % 2 = 0 then ⌊q⌋ else ⌊q⌋ + 1

/-- The per-super-district core of `allocate_seats_proportionally`
(fra_gluing_algorithm.py:479-480): `dem_seats = round(dem_share * total_seats)`
and `rep_seats = total_seats - dem_seats`. -/
def allocateSeats (demShare : ℚ) (totalSeats : ℤ) : ℤ × ℤ :=
  (pyRound (demShare * (totalSeats : ℚ)),
    totalSeats - pyRound (demShare * (totalSeats : ℚ)))

/-! ### Concrete fixtures used by witnesses and counterexamples -/

/-- A trivial concrete generator (state is a counter, the draw is the state);
witnesses instantiate the generator-polymorphic theorems with it. -/
def pickLin : ℕ → ℕ × ℕ := fun st => (st, st + 1)

/-- A concrete seeding function for witnesses. -/
def intSeed : ℤ → ℕ := Int.toNat

/-- Path adjacency on four districts `0 - 1 - 2 - 3`. -/
def adjFour : ℕ → Finset ℕ :=
  fun d =>
    if d = 0 then {1} else if d = 1 then {0, 2} else if d = 2 then {1, 3}
    else if d = 3 then {2} else ∅

/-- The infinite symmetric chain `n ↔ n+1` on ℕ (with the truncated
`0 - 1 = 0` of ℕ making `0` a neighbour of itself). -/
def adjChain : ℕ → Finset ℕ := fun n => {n + 1, n - 1}

/-- A concrete gluing result for witnesses: both districts to super-district
`0`. -/
def d2sEx : ℕ → Option ℕ := fun d => if d = 0 ∨ d = 1 then some 0 else none

/-! ## Basic lemmas about the iteration-order list -/

theorem mem_toAscList {s : Finset ℕ} {x : ℕ} : x ∈ toAscList s ↔ x ∈ s := by
  unfold toAscList
  simp only [List.mem_filter, List.mem_range, decide_eq_true_eq]
  refine ⟨fun h => h.2, fun h => ⟨?_, h⟩⟩
  have h2 : id x ≤ s.sup id := Finset.le_sup h
  exact Nat.lt_succ_of_le h2

theorem toAscList_eq_nil {s : Finset ℕ} : toAscList s = [] ↔ s = ∅ := by
  rw [List.eq_nil_iff_forall_not_mem, Finset.eq_empty_iff_forall_not_mem]
  exact forall_congr' fun x => not_congr mem_toAscList

theorem nodup_toAscList (s : Finset ℕ) : (toAscList s).Nodup :=
  (List.nodup_range _).filter _

theorem length_toAscList (s : Finset ℕ) : (toAscList s).length = s.card := by
  have h1 : (toAscList s).toFinset = s :=
    Finset.ext fun x => by rw [List.mem_toFinset]; exact mem_toAscList
  rw [← List.toFinset_card_of_nodup (nodup_toAscList s), h1]

theorem randomChoice_mem (pick : ℕ → ℕ × ℕ) (st : ℕ) {l : List ℕ}
    (h : l ≠ []) : (randomChoice pick st l).1 ∈ l := by
  unfold randomChoice
  have hlen : 0 < l.length := List.length_pos.mpr h
  have hm : (pick st).1 % l.length < l.length := Nat.mod_lt _ hlen
  rw [List.getD_eq_getElem?_getD, List.getElem?_eq_getElem hm]
  exact List.getElem_mem hm

/-! ## C5: determinism of the gluing engine -/

/-- C5: for fixed generator and seeding functions (covering the seeded
Mersenne Twister), `glue_districts_greedy` applied twice to identical
adjacency, target sizes, district count and seed returns identical results,
whatever the ambient global-generator states `g0`, `g1` were beforehand: the
`random.seed(seed)` calls at lines 285 and 314 replace the ambient state with
a function of the inputs, so no wall-clock or environment state can influence
any random choice. -/
theorem glueDistrictsGreedy_deterministic (pick : ℕ → ℕ × ℕ)
    (seedFn : ℤ → ℕ) (adj : ℕ → Finset ℕ) (ts : List ℤ) (n : ℕ) (seed : ℤ)
    (g0 g1 : ℕ) :
    glueDistrictsGreedy pick seedFn g0 adj ts n seed
      = glueDistrictsGreedy pick seedFn g1 adj ts n seed := rfl

/-! ## C2 counterexample: no configuration check in the engine -/

/-- C2 counterexample: with `target_sizes = []` (summing to 0) and
`num_districts = 3`, `glue_districts_greedy` raises no error at all — it
returns the empty assignment from the very first attempt.  There is no
`InvalidConfiguration` check anywhere in the engine. -/
theorem glue_no_config_check_counterexample :
    (([] : List ℤ).sum ≠ ((3 : ℕ) : ℤ)) ∧
    glueDistrictsGreedy pickLin intSeed 0 (fun _ => ∅) [] 3 0
      = .ok (fun _ => none) :=
  ⟨by decide, rfl⟩

/-! ## C3 counterexample: isolated districts are absent from the dict -/

/-- C3 counterexample: with two precincts `0 ↔ 1` both assigned to district
`0`, district `0` has no edge to a different district, and
`build_district_adjacency` leaves it (and every other district) entirely
absent from the returned `defaultdict` — it is not present with an empty
neighbour set. -/
theorem isolated_district_absent_counterexample :
    0 ∉ (buildDistrictAdjacency [(0, [1]), (1, [0])] (fun _ => 0)).keys ∧
    (buildDistrictAdjacency [(0, [1]), (1, [0])] (fun _ => 0)).keys = ∅ :=
  ⟨by decide, by decide⟩

/-! ## C7 and C9: seat allocation -/

theorem pyRound_cases (q : ℚ) :
    (pyRound q = ⌊q⌋ ∨ pyRound q = ⌊q⌋ + 1) ∧
    (pyRound q = ⌊q⌋ + 1 → 1/2 ≤ q - ⌊q⌋) := by
  unfold pyRound
  split_ifs with h1 h2 h3 <;>
    refine ⟨by omega, fun he => ?_⟩ <;> first
    | omega
    | · push_neg at h1; exact h1

/-- C7: for a vote share in `[0, 1]` and a non-negative seat count `S`,
the two seat counts produced by the allocation core of
`allocate_seats_proportionally` are non-negative and sum to exactly `S`. -/
theorem allocateSeats_sum_nonneg (share : ℚ) (S : ℤ)
    (h0 : 0 ≤ share) (h1 : share ≤ 1) (hS : 0 ≤ S) :
    (allocateSeats share S).1 + (allocateSeats share S).2 = S ∧
    0 ≤ (allocateSeats share S).1 ∧ 0 ≤ (allocateSeats share S).2 := by
  unfold allocateSeats
  have hx0 : (0 : ℚ) ≤ share * (S : ℚ) := by positivity
  have hxS : share * (S : ℚ) ≤ (S : ℚ) := by
    calc share * (S : ℚ) ≤ 1 * (S : ℚ) := by
          exact mul_le_mul_of_nonneg_right h1 (by exact_mod_cast hS)
      _ = (S : ℚ) := one_mul _
  have hfl0 : 0 ≤ ⌊share * (S : ℚ)⌋ := Int.floor_nonneg.mpr hx0
  have hflS : ⌊share * (S : ℚ)⌋ ≤ S := by
    calc ⌊share * (S : ℚ)⌋ ≤ ⌊(S : ℚ)⌋ := Int.floor_le_floor hxS
      _ = S := Int.floor_intCast S
  obtain ⟨hc, hh⟩ := pyRound_cases (share * (S : ℚ))
  have hub : pyRound (share * (S : ℚ)) ≤ S := by
    rcases hc with hc | hc
    · omega
    · have hhalf := hh hc
      have hne : ⌊share * (S : ℚ)⌋ ≠ S := by
        intro hcontra
        have : share * (S : ℚ) - ⌊share * (S : ℚ)⌋ ≤ 0 := by
          rw [hcontra]; linarith
        linarith
      omega
  refine ⟨by ring, by omega, by omega⟩

/-- C7 witness: the spec's own scenario (aggregated share `0.45`, three
seats) gives a valid split. -/
theorem allocateSeats_sum_nonneg_witness :
    (allocateSeats (9/20) 3).1 + (allocateSeats (9/20) 3).2 = 3 ∧
    0 ≤ (allocateSeats (9/20) 3).1 ∧ 0 ≤ (allocateSeats (9/20) 3).2 :=
  allocateSeats_sum_nonneg (9/20) 3 (by norm_num) (by norm_num) (by norm_num)

/-- C9: when the product of vote share and seat count is an exact
half-integer `k + 1/2`, the allocation core resolves the tie by rounding to
the even neighbour (CPython banker's rounding): it yields `k` when `k` is
even and `k + 1` when `k` is odd.  In particular a share of `1/2` with 5
seats gives 2 seats and with 3 seats also gives 2 seats. -/
theorem allocateSeats_half_to_even (share : ℚ) (S k : ℤ)
    (h : share * (S : ℚ) = (k : ℚ) + 1/2) :
    (allocateSeats share S).1 = if k % 2 = 0 then k else k + 1 := by
  unfold allocateSeats pyRound
  rw [h]
  have hfl : ⌊(k : ℚ) + 1/2⌋ = k := by
    rw [Int.floor_eq_iff]
    constructor <;> linarith
  rw [hfl]
  have hfrac : (k : ℚ) + 1/2 - (k : ℤ) = 1/2 := by ring
  rw [hfrac]
  norm_num

/-- C9 witness: a 50% share over 5 seats rounds `2.5` down to the even
value 2. -/
theorem allocateSeats_half_to_even_witness :
    (allocateSeats (1/2) 5).1 = 2 := by
  have h := allocateSeats_half_to_even (1/2) 5 2 (by norm_num)
  simpa using h

/-! ## BFS correctness

The BFS shared by `is_connected` and `can_satisfy_remaining` is related to
the reachability relation `Reach`.  The invariants are the standard ones for
a worklist search: every queued node is visited, and every visited node not
on the queue has all its admissible neighbours visited. -/

theorem bfs_subset (adj : ℕ → Finset ℕ) (allowed : Finset ℕ) :
    ∀ (fuel : ℕ) (q : List ℕ) (vis : Finset ℕ),
    vis ⊆ bfsAux adj allowed fuel q vis := by
  intro fuel
  induction fuel with
  | zero => intro q vis; cases q <;> simp [bfsAux]
  | succ n ih =>
    intro q vis
    cases q with
    | nil => simp [bfsAux]
    | cons c queue =>
      simp only [bfsAux]
      exact Finset.Subset.trans Finset.subset_union_left (ih _ _)

theorem bfs_subset_union (adj : ℕ → Finset ℕ) (allowed : Finset ℕ) :
    ∀ (fuel : ℕ) (q : List ℕ) (vis : Finset ℕ),
    bfsAux adj allowed fuel q vis ⊆ vis ∪ allowed := by
  intro fuel
  induction fuel with
  | zero => intro q vis; cases q <;> simp [bfsAux]
  | succ n ih =>
    intro q vis
    cases q with
    | nil => simp [bfsAux]
    | cons c queue =>
      simp only [bfsAux]
      refine Finset.Subset.trans (ih _ _) ?_
      intro x hx
      rcases Finset.mem_union.mp hx with hx | hx
      · rcases Finset.mem_union.mp hx with hx | hx
        · exact Finset.mem_union_left _ hx
        · exact Finset.mem_union_right _ (Finset.mem_filter.mp hx).2.1
      · exact Finset.mem_union_right _ hx

theorem bfs_sound (adj : ℕ → Finset ℕ) (allowed : Finset ℕ) :
    ∀ (fuel : ℕ) (q : List ℕ) (vis : Finset ℕ) (e : ℕ),
    e ∈ bfsAux adj allowed fuel q vis →
    e ∈ vis ∨ ∃ c ∈ q, Reach adj allowed c e := by
  intro fuel
  induction fuel with
  | zero => intro q vis e he; left; cases q <;> simpa [bfsAux] using he
  | succ n ih =>
    intro q vis e he
    cases q with
    | nil => left; simpa [bfsAux] using he
    | cons c queue =>
      simp only [bfsAux] at he
      rcases ih _ _ _ he with h | ⟨c2, hc2, hr⟩
      · rcases Finset.mem_union.mp h with h | h
        · exact Or.inl h
        · rcases Finset.mem_filter.mp h with ⟨hadj, hcond⟩
          exact Or.inr ⟨c, List.mem_cons_self _ _,
            Relation.ReflTransGen.single ⟨hadj, hcond.1⟩⟩
      · rcases List.mem_append.mp hc2 with h2 | h2
        · exact Or.inr ⟨c2, List.mem_cons_of_mem _ h2, hr⟩
        · rcases Finset.mem_filter.mp (mem_toAscList.mp h2) with ⟨hadj, hcond⟩
          exact Or.inr ⟨c, List.mem_cons_self _ _,
            Relation.ReflTransGen.head ⟨hadj, hcond.1⟩ hr⟩

theorem bfs_closed (adj : ℕ → Finset ℕ) (allowed : Finset ℕ) :
    ∀ (fuel : ℕ) (q : List ℕ) (vis : Finset ℕ),
    q.length + (allowed \ vis).card ≤ fuel →
    (∀ x ∈ q, x ∈ vis) →
    (∀ v ∈ vis, v ∉ q → ∀ w ∈ adj v, w ∈ allowed → w ∈ vis) →
    ∀ v ∈ bfsAux adj allowed fuel q vis, ∀ w ∈ adj v, w ∈ allowed →
      w ∈ bfsAux adj allowed fuel q vis := by
  intro fuel
  induction fuel with
  | zero =>
    intro q vis hfuel _ hcl v hv w hw hwa
    have hq0 : q = [] := List.length_eq_zero.mp (by omega)
    subst hq0
    simp only [bfsAux] at hv ⊢
    exact hcl v hv (by simp) w hw hwa
  | succ n ih =>
    intro q vis hfuel hq hcl
    cases q with
    | nil =>
      intro v hv w hw hwa
      simp only [bfsAux] at hv ⊢
      exact hcl v hv (by simp) w hw hwa
    | cons c queue =>
      simp only [bfsAux]
      have hFsub : (adj c).filter (fun x => x ∈ allowed ∧ x ∉ vis)
          ⊆ allowed \ vis := by
        intro x hx
        rcases Finset.mem_filter.mp hx with ⟨-, hx1, hx2⟩
        exact Finset.mem_sdiff.mpr ⟨hx1, hx2⟩
      apply ih
      · -- fuel accounting: each pop spends exactly one unit of fuel
        rw [List.length_append, length_toAscList]
        have h1 : allowed \ (vis ∪ (adj c).filter (fun x => x ∈ allowed ∧ x ∉ vis))
            = (allowed \ vis) \ (adj c).filter (fun x => x ∈ allowed ∧ x ∉ vis) := by
          ext x
          simp only [Finset.mem_sdiff, Finset.mem_union]
          tauto
        rw [h1, Finset.card_sdiff hFsub]
        have h2 := Finset.card_le_card hFsub
        simp only [List.length_cons] at hfuel
        omega
      · intro x hx
        rcases List.mem_append.mp hx with hx | hx
        · exact Finset.mem_union_left _ (hq x (List.mem_cons_of_mem _ hx))
        · exact Finset.mem_union_right _ (mem_toAscList.mp hx)
      · intro v hv hvq w hw hwa
        rcases Finset.mem_union.mp hv with hv | hv
        · by_cases hvc : v = c
          · subst hvc
            by_cases hwv : w ∈ vis
            · exact Finset.mem_union_left _ hwv
            · exact Finset.mem_union_right _
                (Finset.mem_filter.mpr ⟨hw, hwa, hwv⟩)
          · have hvq2 : v ∉ c :: queue := by
              intro hmem
              rcases List.mem_cons.mp hmem with h | h
              · exact hvc h
              · exact hvq (List.mem_append.mpr (Or.inl h))
            exact Finset.mem_union_left _ (hcl v hv hvq2 w hw hwa)
        · exact absurd (List.mem_append.mpr (Or.inr (mem_toAscList.mpr hv))) hvq

theorem bfs_reach_subset (adj : ℕ → Finset ℕ) (allowed : Finset ℕ)
    (fuel : ℕ) (q : List ℕ) (vis : Finset ℕ)
    (hfuel : q.length + (allowed \ vis).card ≤ fuel)
    (hq : ∀ x ∈ q, x ∈ vis)
    (hcl : ∀ v ∈ vis, v ∉ q → ∀ w ∈ adj v, w ∈ allowed → w ∈ vis)
    {c e : ℕ} (hc : c ∈ q) (hr : Reach adj allowed c e) :
    e ∈ bfsAux adj allowed fuel q vis := by
  induction hr with
  | refl => exact bfs_subset _ _ _ _ _ (hq c hc)
  | tail _ step ih => exact bfs_closed adj allowed fuel q vis hfuel hq hcl _ ih _ step.1 step.2

theorem bfs_spec (adj : ℕ → Finset ℕ) (allowed : Finset ℕ)
    (fuel : ℕ) (q : List ℕ) (vis : Finset ℕ)
    (hfuel : q.length + (allowed \ vis).card ≤ fuel)
    (hq : ∀ x ∈ q, x ∈ vis)
    (hcl : ∀ v ∈ vis, v ∉ q → ∀ w ∈ adj v, w ∈ allowed → w ∈ vis)
    (e : ℕ) :
    e ∈ bfsAux adj allowed fuel q vis ↔
      e ∈ vis ∨ ∃ c ∈ q, Reach adj allowed c e := by
  constructor
  · exact bfs_sound adj allowed fuel q vis e
  · rintro (h | ⟨c, hc, hr⟩)
    · exact bfs_subset _ _ _ _ _ h
    · exact bfs_reach_subset adj allowed fuel q vis hfuel hq hcl hc hr

theorem mem_compOf {adj : ℕ → Finset ℕ} {allowed : Finset ℕ} {d e : ℕ} :
    e ∈ compOf adj allowed d ↔ Reach adj allowed d e := by
  have hcard : (allowed \ {d}).card ≤ allowed.card :=
    Finset.card_le_card Finset.sdiff_subset
  have hfuel : ([d] : List ℕ).length + (allowed \ {d}).card ≤ allowed.card + 1 := by
    simp only [List.length_singleton]
    omega
  have hq : ∀ x ∈ [d], x ∈ ({d} : Finset ℕ) := by
    intro x hx
    rw [List.mem_singleton] at hx
    subst hx
    exact Finset.mem_singleton_self _
  have hcl : ∀ v ∈ ({d} : Finset ℕ), v ∉ [d] → ∀ w ∈ adj v, w ∈ allowed →
      w ∈ ({d} : Finset ℕ) := by
    intro v hv hvq
    rw [Finset.mem_singleton] at hv
    rw [List.mem_singleton] at hvq
    exact absurd hv hvq
  unfold compOf
  rw [bfs_spec adj allowed (allowed.card + 1) [d] {d} hfuel hq hcl]
  constructor
  · rintro (h | ⟨c, hc, hr⟩)
    · rw [Finset.mem_singleton] at h; subst h; exact Relation.ReflTransGen.refl
    · rw [List.mem_singleton] at hc; subst hc; exact hr
  · intro hr; exact Or.inr ⟨d, List.mem_singleton.mpr rfl, hr⟩

/-! ## Reachability helper lemmas -/

theorem reach_mem {adj : ℕ → Finset ℕ} {allowed : Finset ℕ} {a b : ℕ}
    (h : Reach adj allowed a b) : b = a ∨ b ∈ allowed := by
  induction h with
  | refl => exact Or.inl rfl
  | tail _ step _ => exact Or.inr step.2

theorem reach_symm {adj : ℕ → Finset ℕ} {allowed : Finset ℕ}
    (hsym : ∀ x y, x ∈ adj y → y ∈ adj x) {a b : ℕ} (ha : a ∈ allowed)
    (h : Reach adj allowed a b) : Reach adj allowed b a := by
  induction h with
  | refl => exact Relation.ReflTransGen.refl
  | @tail m b2 hm step ih =>
    have hmem : m ∈ allowed := by
      rcases reach_mem hm with h2 | h2
      · rwa [h2]
      · exact h2
    exact Relation.ReflTransGen.head ⟨hsym b2 m step.1, hmem⟩ ih

theorem closed_absorbs_reach {adj : ℕ → Finset ℕ} {allowed S : Finset ℕ}
    (hcl : ∀ v ∈ S, ∀ w ∈ adj v, w ∈ allowed → w ∈ S)
    {a b : ℕ} (ha : a ∈ S) (h : Reach adj allowed a b) : b ∈ S := by
  induction h with
  | refl => exact ha
  | tail _ step ih => exact hcl _ ih _ step.1 step.2

theorem reach_class_eq {adj : ℕ → Finset ℕ} {allowed : Finset ℕ}
    (hsym : ∀ x y, x ∈ adj y → y ∈ adj x) {d0 d : ℕ} (hd0 : d0 ∈ allowed)
    (h : Reach adj allowed d0 d) (e : ℕ) :
    Reach adj allowed d e ↔ Reach adj allowed d0 e :=
  ⟨fun he => h.trans he, fun he => (reach_symm hsym hd0 h).trans he⟩

/-! ## Components of the unused set -/

theorem mem_unionComps {cs : List (Finset ℕ)} {x : ℕ} :
    x ∈ unionComps cs ↔ ∃ C ∈ cs, x ∈ C := by
  induction cs with
  | nil => simp [unionComps]
  | cons C ds ih => simp [unionComps, List.foldr_cons, Finset.mem_union, ih.symm]

theorem unionComps_append (cs ds : List (Finset ℕ)) :
    unionComps (cs ++ ds) = unionComps cs ∪ unionComps ds := by
  induction cs with
  | nil => simp [unionComps]
  | cons C cs2 ih =>
    show C ∪ unionComps (cs2 ++ ds) = C ∪ unionComps cs2 ∪ unionComps ds
    rw [ih, Finset.union_assoc]

theorem subset_unionComps {cs : List (Finset ℕ)} {C : Finset ℕ} (h : C ∈ cs) :
    C ⊆ unionComps cs :=
  fun _x hx => mem_unionComps.mpr ⟨C, h, hx⟩

theorem disjoint_unionComps {cs : List (Finset ℕ)} {C : Finset ℕ}
    (h : ∀ D ∈ cs, Disjoint C D) : Disjoint C (unionComps cs) := by
  induction cs with
  | nil => simp [unionComps]
  | cons D ds ih =>
    show Disjoint C (D ∪ unionComps ds)
    exact Finset.disjoint_union_right.mpr
      ⟨h D (List.mem_cons_self _ _), ih fun E hE => h E (List.mem_cons_of_mem _ hE)⟩

theorem unionComps_card {cs : List (Finset ℕ)}
    (h : List.Pairwise (fun A B => Disjoint A B) cs) :
    (unionComps cs).card = (cs.map Finset.card).sum := by
  induction cs with
  | nil => simp [unionComps]
  | cons C ds ih =>
    rcases List.pairwise_cons.mp h with ⟨hC, hds⟩
    show (C ∪ unionComps ds).card = _
    rw [Finset.card_union_of_disjoint (disjoint_unionComps hC), ih hds]
    simp

/-- The component fold maintains: pairwise-disjoint components whose union is
the visited set, the visited set inside `unused`, monotone growth of the
visited set, and coverage of every processed district.  This holds for an
arbitrary (possibly asymmetric) adjacency function. -/
theorem componentsFold_part (adj : ℕ → Finset ℕ) (unused : Finset ℕ) :
    ∀ (l : List ℕ) (comps : List (Finset ℕ)) (visited : Finset ℕ),
    (∀ x ∈ l, x ∈ unused) →
    visited ⊆ unused →
    List.Pairwise (fun A B => Disjoint A B) comps →
    unionComps comps = visited →
    List.Pairwise (fun A B => Disjoint A B)
        (l.foldl (componentStep adj unused) (comps, visited)).1 ∧
    unionComps (l.foldl (componentStep adj unused) (comps, visited)).1
        = (l.foldl (componentStep adj unused) (comps, visited)).2 ∧
    (l.foldl (componentStep adj unused) (comps, visited)).2 ⊆ unused ∧
    visited ⊆ (l.foldl (componentStep adj unused) (comps, visited)).2 ∧
    (∀ x ∈ l, x ∈ (l.foldl (componentStep adj unused) (comps, visited)).2) := by
  intro l
  induction l with
  | nil =>
    intro comps visited _ hvu hpw huni
    exact ⟨hpw, huni, hvu, Finset.Subset.refl _, by simp⟩
  | cons start l2 ih =>
    intro comps visited hl hvu hpw huni
    rw [List.foldl_cons]
    by_cases hs : start ∈ visited
    · rw [show componentStep adj unused (comps, visited) start = (comps, visited) from
        if_pos hs]
      obtain ⟨a, b, c, d, e⟩ :=
        ih comps visited (fun x hx => hl x (List.mem_cons_of_mem _ hx)) hvu hpw huni
      refine ⟨a, b, c, d, fun x hx => ?_⟩
      rcases List.mem_cons.mp hx with hx | hx
      · subst hx; exact d hs
      · exact e x hx
    · have hstu : start ∈ unused := hl start (List.mem_cons_self _ _)
      rw [show componentStep adj unused (comps, visited) start
          = (comps ++ [bfsAux adj unused (unused.card + 1) [start]
              (insert start visited) \ visited],
             bfsAux adj unused (unused.card + 1) [start] (insert start visited)) from
        if_neg hs]
      have hvv : visited ⊆ bfsAux adj unused (unused.card + 1) [start]
          (insert start visited) :=
        Finset.Subset.trans (Finset.subset_insert _ _) (bfs_subset _ _ _ _ _)
      have hvu2 : bfsAux adj unused (unused.card + 1) [start] (insert start visited)
          ⊆ unused := by
        refine Finset.Subset.trans (bfs_subset_union _ _ _ _ _) ?_
        intro x hx
        rcases Finset.mem_union.mp hx with hx | hx
        · rcases Finset.mem_insert.mp hx with hx | hx
          · subst hx; exact hstu
          · exact hvu hx
        · exact hx
      have hpw2 : List.Pairwise (fun A B => Disjoint A B)
          (comps ++ [bfsAux adj unused (unused.card + 1) [start]
            (insert start visited) \ visited]) := by
        rw [List.pairwise_append]
        refine ⟨hpw, List.pairwise_singleton _ _, fun A hA B hB => ?_⟩
        rw [List.mem_singleton] at hB
        subst hB
        rw [Finset.disjoint_left]
        intro x hxA hxB
        exact (Finset.mem_sdiff.mp hxB).2 (huni ▸ subset_unionComps hA hxA)
      have huni2 : unionComps (comps ++ [bfsAux adj unused (unused.card + 1) [start]
            (insert start visited) \ visited])
          = bfsAux adj unused (unused.card + 1) [start] (insert start visited) := by
        rw [unionComps_append, huni]
        show visited ∪ (_ \ _ ∪ ∅) = _
        rw [Finset.union_empty, Finset.union_sdiff_of_subset hvv]
      obtain ⟨a, b, c, d, e⟩ :=
        ih _ _ (fun x hx => hl x (List.mem_cons_of_mem _ hx)) hvu2 hpw2 huni2
      refine ⟨a, b, c, Finset.Subset.trans hvv d, fun x hx => ?_⟩
      rcases List.mem_cons.mp hx with hx | hx
      · subst hx
        exact d (bfs_subset _ _ _ _ _ (Finset.mem_insert_self _ _))
      · exact e x hx

/-- With a symmetric adjacency function, every component produced by the fold
is a full reachability class of one of its members. -/
theorem componentsFold_classes (adj : ℕ → Finset ℕ) (unused : Finset ℕ)
    (hsym : ∀ x y, x ∈ adj y → y ∈ adj x) :
    ∀ (l : List ℕ) (comps : List (Finset ℕ)) (visited : Finset ℕ),
    (∀ x ∈ l, x ∈ unused) →
    visited ⊆ unused →
    (∀ v ∈ visited, ∀ w ∈ adj v, w ∈ unused → w ∈ visited) →
    (∀ C ∈ comps, ∃ d0 ∈ unused, ∀ e, e ∈ C ↔ Reach adj unused d0 e) →
    ∀ C ∈ (l.foldl (componentStep adj unused) (comps, visited)).1,
      ∃ d0 ∈ unused, ∀ e, e ∈ C ↔ Reach adj unused d0 e := by
  intro l
  induction l with
  | nil =>
    intro comps visited _ _ _ hcls
    exact hcls
  | cons start l2 ih =>
    intro comps visited hl hvu hclo hcls
    rw [List.foldl_cons]
    by_cases hs : start ∈ visited
    · rw [show componentStep adj unused (comps, visited) start = (comps, visited) from
        if_pos hs]
      exact ih comps visited (fun x hx => hl x (List.mem_cons_of_mem _ hx)) hvu hclo hcls
    · have hstu : start ∈ unused := hl start (List.mem_cons_self _ _)
      rw [show componentStep adj unused (comps, visited) start
          = (comps ++ [bfsAux adj unused (unused.card + 1) [start]
              (insert start visited) \ visited],
             bfsAux adj unused (unused.card + 1) [start] (insert start visited)) from
        if_neg hs]
      have hfuel : ([start] : List ℕ).length
          + (unused \ insert start visited).card ≤ unused.card + 1 := by
        have hh : (unused \ insert start visited).card ≤ unused.card :=
          Finset.card_le_card Finset.sdiff_subset
        simp only [List.length_singleton]
        omega
      have hq : ∀ x ∈ [start], x ∈ insert start visited := by
        intro x hx
        rw [List.mem_singleton] at hx
        subst hx
        exact Finset.mem_insert_self _ _
      have hcl2 : ∀ v ∈ insert start visited, v ∉ [start] →
          ∀ w ∈ adj v, w ∈ unused → w ∈ insert start visited := by
        intro v hv hvq w hw hwa
        rcases Finset.mem_insert.mp hv with hv | hv
        · exact absurd (List.mem_singleton.mpr hv) hvq
        · exact Finset.mem_insert_of_mem (hclo v hv w hw hwa)
      have hspec := bfs_spec adj unused (unused.card + 1) [start]
        (insert start visited) hfuel hq hcl2
      have hclo2 : ∀ v ∈ bfsAux adj unused (unused.card + 1) [start]
          (insert start visited), ∀ w ∈ adj v, w ∈ unused →
          w ∈ bfsAux adj unused (unused.card + 1) [start] (insert start visited) :=
        bfs_closed adj unused (unused.card + 1) [start] (insert start visited)
          hfuel hq hcl2
      have hvu2 : bfsAux adj unused (unused.card + 1) [start] (insert start visited)
          ⊆ unused := by
        refine Finset.Subset.trans (bfs_subset_union _ _ _ _ _) ?_
        intro x hx
        rcases Finset.mem_union.mp hx with hx | hx
        · rcases Finset.mem_insert.mp hx with hx | hx
          · subst hx; exact hstu
          · exact hvu hx
        · exact hx
      have hcls2 : ∀ C ∈ comps ++ [bfsAux adj unused (unused.card + 1) [start]
            (insert start visited) \ visited],
          ∃ d0 ∈ unused, ∀ e, e ∈ C ↔ Reach adj unused d0 e := by
        intro C hC
        rcases List.mem_append.mp hC with hC | hC
        · exact hcls C hC
        · rw [List.mem_singleton] at hC
          subst hC
          refine ⟨start, hstu, fun e => ?_⟩
          constructor
          · intro he
            rcases Finset.mem_sdiff.mp he with ⟨he1, he2⟩
            rcases (hspec e).mp he1 with he1 | ⟨c, hc, hr⟩
            · rcases Finset.mem_insert.mp he1 with he1 | he1
              · subst he1; exact Relation.ReflTransGen.refl
              · exact absurd he1 he2
            · rw [List.mem_singleton] at hc
              subst hc
              exact hr
          · intro hr
            rw [Finset.mem_sdiff]
            refine ⟨(hspec e).mpr (Or.inr ⟨start, List.mem_singleton.mpr rfl, hr⟩), ?_⟩
            intro hev
            exact hs (closed_absorbs_reach hclo hev (reach_symm hsym hstu hr))
      exact ih _ _ (fun x hx => hl x (List.mem_cons_of_mem _ hx)) hvu2 hclo2 hcls2

end FRA

namespace FRA

theorem findComponents_partition (adj : ℕ → Finset ℕ) (unused : Finset ℕ) :
    List.Pairwise (fun A B => Disjoint A B) (findComponents adj unused) ∧
    unionComps (findComponents adj unused) = unused := by
  obtain ⟨a, b, c, _, e⟩ := componentsFold_part adj unused (toAscList unused) [] ∅
    (fun x hx => mem_toAscList.mp hx) (Finset.empty_subset _) List.Pairwise.nil rfl
  refine ⟨a, ?_⟩
  unfold findComponents
  rw [b]
  exact Finset.Subset.antisymm c (fun x hx => e x (mem_toAscList.mpr hx))

theorem findComponents_classes (adj : ℕ → Finset ℕ) (unused : Finset ℕ)
    (hsym : ∀ x y, x ∈ adj y → y ∈ adj x) :
    ∀ C ∈ findComponents adj unused,
      ∃ d0 ∈ unused, ∀ e, e ∈ C ↔ Reach adj unused d0 e :=
  componentsFold_classes adj unused hsym (toAscList unused) [] ∅
    (fun _x hx => mem_toAscList.mp hx) (Finset.empty_subset _)
    (fun v hv => absurd hv (Finset.not_mem_empty v))
    (fun C hC => absurd hC (List.not_mem_nil C))

/-- A passing `can_satisfy_remaining` pins down the size of the unused set:
the components partition it, so their sizes sum to its cardinality, which the
check compares with the total of the remaining target sizes (trivially `0 = 0`
in the empty case). -/
theorem canSatisfyRemaining_card {unused : Finset ℕ} {adj : ℕ → Finset ℕ}
    {rs : List ℤ} (h : canSatisfyRemaining unused adj rs = true) :
    (unused.card : ℤ) = rs.sum := by
  unfold canSatisfyRemaining at h
  by_cases hrs : rs = []
  · subst hrs
    rw [if_pos rfl] at h
    simp only [decide_eq_true_eq] at h
    simp [h]
  · rw [if_neg hrs] at h
    by_cases hsum :
        (((List.insertionSort (· ≥ ·) ((findComponents adj unused).map Finset.card)).sum : ℤ)
          ≠ (List.insertionSort (· ≥ ·) rs).sum)
    · rw [if_pos hsum] at h
      exact absurd h (by simp)
    · push_neg at hsum
      have h1 : (List.insertionSort (· ≥ ·) ((findComponents adj unused).map Finset.card)).sum
          = ((findComponents adj unused).map Finset.card).sum :=
        (List.perm_insertionSort _ _).sum_eq
      have h2 : (List.insertionSort (· ≥ ·) rs).sum = rs.sum :=
        (List.perm_insertionSort _ _).sum_eq
      obtain ⟨hpw, huni⟩ := findComponents_partition adj unused
      have h3 : ((findComponents adj unused).map Finset.card).sum = unused.card := by
        rw [← unionComps_card hpw, huni]
      rw [h1, h3, h2] at hsum
      exact hsum

end FRA

namespace FRA

theorem sortedDesc_head_max {α : Type} [LinearOrder α] {x y : α} {xs : List α}
    (hs : List.Sorted (· ≥ ·) (x :: xs)) (hy : y ∈ x :: xs) : y ≤ x := by
  rcases List.mem_cons.mp hy with h | h
  · exact le_of_eq h
  · exact (List.sorted_cons.mp hs).1 y h

theorem sum_ge_one {l : List ℤ} (hpos : ∀ r ∈ l, 1 ≤ r) (hne : l ≠ []) :
    1 ≤ l.sum := by
  cases l with
  | nil => exact absurd rfl hne
  | cons r rest =>
    have h1 : 1 ≤ r := hpos r (List.mem_cons_self _ _)
    have h2 : 0 ≤ rest.sum :=
      List.sum_nonneg fun x hx => le_trans zero_le_one (hpos x (List.mem_cons_of_mem _ hx))
    rw [List.sum_cons]
    linarith

/-- C4: `can_satisfy_remaining` returns `true` exactly when — for an empty
remaining-size list — no district is unused, and otherwise when the sizes of
the connected components of the unused set (which partition it, so their
total is `unused.card`) sum to the total of the remaining target sizes and
the largest component is at least as large as the largest remaining target
(expressed as: every remaining target fits into some district's component
`compOf`).  Stated for positive target sizes (the only ones the data model
admits) and a symmetric adjacency relation (DistrictAdjacency is symmetric
by construction). -/
theorem canSatisfyRemaining_characterization (unused : Finset ℕ)
    (adj : ℕ → Finset ℕ) (remaining : List ℤ)
    (hpos : ∀ r ∈ remaining, 1 ≤ r)
    (hsym : ∀ x y, x ∈ adj y → y ∈ adj x) :
    canSatisfyRemaining unused adj remaining = true ↔
      (if remaining = [] then unused = ∅
       else ((unused.card : ℤ) = remaining.sum ∧
         ∀ r ∈ remaining, ∃ d ∈ unused, r ≤ ((compOf adj unused d).card : ℤ))) := by
  by_cases hrs : remaining = []
  · subst hrs
    rw [if_pos rfl]
    unfold canSatisfyRemaining
    rw [if_pos rfl]
    simp [Finset.card_eq_zero]
  · rw [if_neg hrs]
    have hperm_c : (List.insertionSort (· ≥ ·)
        ((findComponents adj unused).map Finset.card)).Perm
        ((findComponents adj unused).map Finset.card) := List.perm_insertionSort _ _
    have hperm_r : (List.insertionSort (· ≥ ·) remaining).Perm remaining :=
      List.perm_insertionSort _ _
    obtain ⟨hpw, huni⟩ := findComponents_partition adj unused
    have hcsum : ((findComponents adj unused).map Finset.card).sum = unused.card := by
      rw [← unionComps_card hpw, huni]
    constructor
    · intro h
      have hcard := canSatisfyRemaining_card h
      refine ⟨hcard, ?_⟩
      intro r hr
      unfold canSatisfyRemaining at h
      rw [if_neg hrs] at h
      by_cases hsum : (((List.insertionSort (· ≥ ·)
            ((findComponents adj unused).map Finset.card)).sum : ℤ)
          ≠ (List.insertionSort (· ≥ ·) remaining).sum)
      · rw [if_pos hsum] at h
        exact absurd h (by simp)
      rw [if_neg hsum] at h
      rcases hcl : List.insertionSort (· ≥ ·)
          ((findComponents adj unused).map Finset.card) with _ | ⟨c0, cs2⟩
      · -- no components: the unused set is empty, contradicting positivity
        have hmapnil : (findComponents adj unused).map Finset.card = [] := by
          have hlen := hperm_c.length_eq
          rw [hcl] at hlen
          exact List.length_eq_zero.mp hlen.symm
        have huempty : unused = ∅ := by
          rw [← huni]
          rcases List.map_eq_nil_iff.mp hmapnil with hnil
          rw [hnil]
          rfl
        rw [huempty] at hcard
        have := sum_ge_one hpos hrs
        simp only [Finset.card_empty, Nat.cast_zero] at hcard
        omega
      · rcases hrql : List.insertionSort (· ≥ ·) remaining with _ | ⟨r0, rq2⟩
        · have hlen := hperm_r.length_eq
          rw [hrql] at hlen
          exact absurd (List.length_eq_zero.mp hlen.symm) hrs
        · rw [hcl, hrql] at h
          change (if (c0 : ℤ) < r0 then false else true) = true at h
          have hle : (r0 : ℤ) ≤ (c0 : ℤ) := by
            by_contra hlt
            push_neg at hlt
            rw [if_pos hlt] at h
            exact absurd h (by simp)
          have hr0 : r ≤ r0 := by
            have hsrt : List.Sorted (· ≥ ·) (r0 :: rq2) := by
              rw [← hrql]
              exact List.sorted_insertionSort _ _
            have hmem : r ∈ r0 :: rq2 := by
              rw [← hrql]
              exact hperm_r.symm.subset hr
            exact sortedDesc_head_max hsrt hmem
          have hc0mem : c0 ∈ (findComponents adj unused).map Finset.card := by
            have : c0 ∈ List.insertionSort (· ≥ ·)
                ((findComponents adj unused).map Finset.card) := by
              rw [hcl]
              exact List.mem_cons_self _ _
            exact hperm_c.subset this
          obtain ⟨C, hC, hCcard⟩ := List.mem_map.mp hc0mem
          obtain ⟨d0, hd0, hclass⟩ := findComponents_classes adj unused hsym C hC
          have hcomp : compOf adj unused d0 = C :=
            Finset.ext fun e => by rw [mem_compOf, hclass e]
          refine ⟨d0, hd0, ?_⟩
          rw [hcomp, hCcard]
          omega
    · rintro ⟨hcard, hall⟩
      unfold canSatisfyRemaining
      rw [if_neg hrs]
      have hsum : ¬ (((List.insertionSort (· ≥ ·)
            ((findComponents adj unused).map Finset.card)).sum : ℤ)
          ≠ (List.insertionSort (· ≥ ·) remaining).sum) := by
        push_neg
        rw [hperm_c.sum_eq, hperm_r.sum_eq, hcsum, hcard]
      rw [if_neg hsum]
      rcases hcl : List.insertionSort (· ≥ ·)
          ((findComponents adj unused).map Finset.card) with _ | ⟨c0, cs2⟩
      · rcases List.insertionSort (· ≥ ·) remaining with _ | ⟨r0, rq2⟩ <;> rfl
      · rcases hrql : List.insertionSort (· ≥ ·) remaining with _ | ⟨r0, rq2⟩
        · rfl
        · have hr0mem : r0 ∈ remaining := by
            refine hperm_r.subset ?_
            rw [hrql]
            exact List.mem_cons_self _ _
          obtain ⟨d, hd, hdle⟩ := hall r0 hr0mem
          have hduni : d ∈ unionComps (findComponents adj unused) := by
            rw [huni]
            exact hd
          obtain ⟨C, hC, hdC⟩ := mem_unionComps.mp hduni
          obtain ⟨d0, hd0, hclass⟩ := findComponents_classes adj unused hsym C hC
          have hreach : Reach adj unused d0 d := (hclass d).mp hdC
          have hcompC : compOf adj unused d = C :=
            Finset.ext fun e => by
              rw [mem_compOf, reach_class_eq hsym hd0 hreach e, ← hclass e]
          have hCcs : C.card ∈ (c0 :: cs2 : List ℕ) := by
            rw [← hcl]
            exact hperm_c.symm.subset (List.mem_map_of_mem Finset.card hC)
          have hsrt : List.Sorted (· ≥ ·) (c0 :: cs2 : List ℕ) := by
            rw [← hcl]
            exact List.sorted_insertionSort _ _
          have hCc0 : C.card ≤ c0 := sortedDesc_head_max hsrt hCcs
          have : (r0 : ℤ) ≤ (c0 : ℤ) := by
            rw [hcompC] at hdle
            omega
          change (if (c0 : ℤ) < r0 then false else true) = true
          rw [if_neg (by omega)]

/-- C4 witness: two chain-adjacent districts `{0, 1}` with one remaining
target of size 2 pass the feasibility check. -/
theorem canSatisfyRemaining_characterization_witness :
    canSatisfyRemaining {0, 1} adjChain [2] = true := by
  refine (canSatisfyRemaining_characterization {0, 1} adjChain [2]
    (by decide) ?_).mpr ?_
  · intro a b hmem
    simp only [adjChain, Finset.mem_insert, Finset.mem_singleton] at hmem ⊢
    omega
  · rw [if_neg (by decide)]
    exact ⟨by decide, by decide⟩

end FRA

namespace FRA

/-- What a successful growth run guarantees: the group only grew, the group
and the unused set still partition their original union, they stay disjoint,
and the final group size is exactly `max (initial size) target` (the loop
runs only while the size is below the target and then adds one district per
iteration). -/
theorem growGroup_ok (pick : ℕ → ℕ × ℕ) (adj : ℕ → Finset ℕ) (target : ℤ) :
    ∀ (fuel : ℕ) (group unused : Finset ℕ) (st : ℕ)
      (g2 u2 : Finset ℕ) (st2 : ℕ),
    Disjoint group unused →
    growGroup pick adj target fuel group unused st = .ok (g2, u2, st2) →
    group ⊆ g2 ∧ g2 ∪ u2 = group ∪ unused ∧ Disjoint g2 u2 ∧
      (g2.card : ℤ) = max (group.card : ℤ) target := by
  intro fuel
  induction fuel with
  | zero =>
    intro group unused st g2 u2 st2 _ h
    simp [growGroup] at h
  | succ n ih =>
    intro group unused st g2 u2 st2 hdisj h
    simp only [growGroup] at h
    by_cases hlt : (group.card : ℤ) < target
    · rw [if_pos hlt] at h
      by_cases hcl :
          toAscList (group.biUnion fun d => (adj d).filter fun x => x ∈ unused) = []
      · rw [if_pos hcl] at h
        simp at h
      · rw [if_neg hcl] at h
        have hnd : (randomChoice pick st
            (toAscList (group.biUnion fun d => (adj d).filter fun x => x ∈ unused))).1
            ∈ unused := by
          have hmem := randomChoice_mem pick st hcl
          rcases Finset.mem_biUnion.mp (mem_toAscList.mp hmem) with ⟨d, _, hmem2⟩
          exact (Finset.mem_filter.mp hmem2).2
        have hndg : (randomChoice pick st
            (toAscList (group.biUnion fun d => (adj d).filter fun x => x ∈ unused))).1
            ∉ group := Finset.disjoint_right.mp hdisj hnd
        have hdisj2 : Disjoint
            (insert (randomChoice pick st
              (toAscList (group.biUnion fun d => (adj d).filter fun x => x ∈ unused))).1
              group)
            (unused.erase (randomChoice pick st
              (toAscList (group.biUnion fun d => (adj d).filter fun x => x ∈ unused))).1) := by
          rw [Finset.disjoint_left]
          intro x hx hx2
          rcases Finset.mem_insert.mp hx with hx | hx
          · exact Finset.not_mem_erase _ _ (hx ▸ hx2)
          · exact Finset.disjoint_left.mp hdisj hx (Finset.mem_of_mem_erase hx2)
        obtain ⟨ha, hb, hc, hd⟩ := ih _ _ _ _ _ _ hdisj2 h
        refine ⟨Finset.Subset.trans (Finset.subset_insert _ _) ha, ?_, hc, ?_⟩
        · rw [hb, Finset.insert_union, ← Finset.union_insert, Finset.insert_erase hnd]
        · rw [Finset.card_insert_of_not_mem hndg] at hd
          have h1 : ((group.card + 1 : ℕ) : ℤ) ≤ target := by push_cast; omega
          rw [max_eq_right h1] at hd
          rw [max_eq_right (le_of_lt hlt)]
          exact hd
    · rw [if_neg hlt] at h
      simp only [Except.ok.injEq, Prod.mk.injEq] at h
      obtain ⟨h1, h2, h3⟩ := h
      subst h1
      subst h2
      subst h3
      exact ⟨Finset.Subset.refl _, rfl, hdisj, (max_eq_left (le_of_not_lt hlt)).symm⟩

/-- Destructuring a successful first super-district step: it yields a grown
group that passed the contiguity and feasibility checks and a successful
recursive run on the remaining targets with the committed assignment. -/
theorem glueSupers_cons_ok (pick : ℕ → ℕ × ℕ) (adj : ℕ → Finset ℕ)
    {t : ℤ} {rest : List ℤ} {i : ℕ} {unused : Finset ℕ}
    {assigned : ℕ → Option ℕ} {st : ℕ} {result : ℕ → Option ℕ}
    (h : glueSupers pick adj (t :: rest) i unused assigned st = .ok result) :
    ∃ group unused2 st2,
      group ∪ unused2 = unused ∧ Disjoint group unused2 ∧
      (group.card : ℤ) = max 1 t ∧
      isConnected group adj = true ∧
      canSatisfyRemaining unused2 adj rest = true ∧
      glueSupers pick adj rest (i + 1) unused2
        (fun d => if d ∈ group then some i else assigned d) st2 = .ok result := by
  simp only [glueSupers] at h
  by_cases hu : unused = ∅
  · rw [if_pos hu] at h
    simp at h
  · rw [if_neg hu] at h
    split at h
    · simp at h
    · rename_i group unused2 st2 hgrow
      by_cases hconn : isConnected group adj
      · rw [if_pos hconn] at h
        by_cases hsat : canSatisfyRemaining unused2 adj rest
        · rw [if_pos hsat] at h
          have hsd : (randomChoice pick st (toAscList unused)).1 ∈ unused := by
            have hne : toAscList unused ≠ [] := by
              rw [ne_eq, toAscList_eq_nil]
              exact hu
            exact mem_toAscList.mp (randomChoice_mem pick st hne)
          have hdisj0 : Disjoint ({(randomChoice pick st (toAscList unused)).1} : Finset ℕ)
              (unused.erase (randomChoice pick st (toAscList unused)).1) :=
            Finset.disjoint_singleton_left.mpr (Finset.not_mem_erase _ _)
          obtain ⟨_, hb, hc, hd⟩ := growGroup_ok pick adj t _ _ _ _ _ _ _ hdisj0 hgrow
          refine ⟨group, unused2, st2, ?_, hc, ?_, hconn, hsat, h⟩
          · rw [hb, ← Finset.insert_eq, Finset.insert_erase hsd]
          · rw [hd, Finset.card_singleton]
            norm_num
        · rw [if_neg hsat] at h
          simp at h
      · rw [if_neg hconn] at h
        simp at h

/-- A successful first step pins the unused-set size down to
`max 1 t + (sum of the rest)`: the group consumes `max 1 t` districts and the
feasibility check forces the leftover to match the remaining total. -/
theorem glueSupers_cons_ok_card (pick : ℕ → ℕ × ℕ) (adj : ℕ → Finset ℕ)
    {t : ℤ} {rest : List ℤ} {i : ℕ} {unused : Finset ℕ}
    {assigned : ℕ → Option ℕ} {st : ℕ} {result : ℕ → Option ℕ}
    (h : glueSupers pick adj (t :: rest) i unused assigned st = .ok result) :
    (unused.card : ℤ) = max 1 t + rest.sum := by
  obtain ⟨group, u2, st2, hb, hc, hd, _, hsat, _⟩ := glueSupers_cons_ok pick adj h
  have h1 := canSatisfyRemaining_card hsat
  have h2 : unused.card = group.card + u2.card := by
    rw [← hb, Finset.card_union_of_disjoint hc]
  have h2b : (unused.card : ℤ) = (group.card : ℤ) + (u2.card : ℤ) := by
    exact_mod_cast h2
  linarith

end FRA

namespace FRA

/-- The success invariant of the per-super-district loop, generalised over
the loop state: on success, districts outside `unused` keep their previous
assignment, every unused district is committed to one of the remaining
super-district ids, and the group committed to the `k`-th remaining id has
exactly the `k`-th target size and passed `is_connected`. -/
theorem glueSupers_ok_spec (pick : ℕ → ℕ × ℕ) (adj : ℕ → Finset ℕ) :
    ∀ (ts : List ℤ) (i0 : ℕ) (unused : Finset ℕ) (assigned : ℕ → Option ℕ)
      (st : ℕ) (result : ℕ → Option ℕ),
    glueSupers pick adj ts i0 unused assigned st = .ok result →
    (∀ d ∈ unused, assigned d = none) →
    (unused.card : ℤ) = ts.sum →
    (∀ d, d ∉ unused → result d = assigned d) ∧
    (∀ d ∈ unused, ∃ k, k < ts.length ∧ result d = some (i0 + k)) ∧
    (∀ k (hk : k < ts.length),
      ((unused.filter (fun d => result d = some (i0 + k))).card : ℤ)
          = ts.get ⟨k, hk⟩ ∧
      isConnected (unused.filter (fun d => result d = some (i0 + k))) adj
          = true) := by
  intro ts
  induction ts with
  | nil =>
    intro i0 unused assigned st result h hnone hsum
    simp only [glueSupers, Except.ok.injEq] at h
    subst h
    have hemp : unused = ∅ := by
      rw [List.sum_nil] at hsum
      exact Finset.card_eq_zero.mp (by exact_mod_cast hsum)
    subst hemp
    refine ⟨fun d _ => rfl, fun d hd => absurd hd (Finset.not_mem_empty d), ?_⟩
    intro k hk
    exact absurd hk (by simp)
  | cons t rest ih =>
    intro i0 unused assigned st result h hnone hsum
    obtain ⟨group, unused2, st2, hun, hdisj, hcard, hconn, hsat, hrec⟩ :=
      glueSupers_cons_ok pick adj h
    have hcard2 := canSatisfyRemaining_card hsat
    have hucard : (unused.card : ℤ) = (group.card : ℤ) + (unused2.card : ℤ) := by
      rw [← hun]
      exact_mod_cast Finset.card_union_of_disjoint hdisj
    rw [List.sum_cons] at hsum
    have ht1 : 1 ≤ t := by
      by_contra hle
      push_neg at hle
      rw [max_eq_left (le_of_lt hle)] at hcard
      omega
    have hgt : (group.card : ℤ) = t := by rw [hcard, max_eq_right ht1]
    have hsub_g : group ⊆ unused := by rw [← hun]; exact Finset.subset_union_left
    have hsub_u : unused2 ⊆ unused := by rw [← hun]; exact Finset.subset_union_right
    have hnone2 : ∀ d ∈ unused2,
        (fun d => if d ∈ group then some i0 else assigned d) d = none := by
      intro d hd
      show (if d ∈ group then some i0 else assigned d) = none
      rw [if_neg (Finset.disjoint_right.mp hdisj hd)]
      exact hnone d (hsub_u hd)
    obtain ⟨P1, P2, P3⟩ :=
      ih (i0 + 1) unused2 _ st2 result hrec hnone2 (by rw [hcard2])
    have hgroupval : ∀ d ∈ group, result d = some i0 := by
      intro d hd
      have hnd2 : d ∉ unused2 := Finset.disjoint_left.mp hdisj hd
      rw [P1 d hnd2]
      show (if d ∈ group then some i0 else assigned d) = some i0
      rw [if_pos hd]
    refine ⟨?_, ?_, ?_⟩
    · intro d hd
      have hd2 : d ∉ unused2 := fun hmem => hd (hsub_u hmem)
      have hdg : d ∉ group := fun hmem => hd (hsub_g hmem)
      rw [P1 d hd2]
      show (if d ∈ group then some i0 else assigned d) = assigned d
      rw [if_neg hdg]
    · intro d hd
      rw [← hun] at hd
      rcases Finset.mem_union.mp hd with hd | hd
      · exact ⟨0, by simp, by rw [Nat.add_zero]; exact hgroupval d hd⟩
      · obtain ⟨k, hk, hkval⟩ := P2 d hd
        refine ⟨k + 1, by simp only [List.length_cons]; omega, ?_⟩
        rw [show i0 + (k + 1) = (i0 + 1) + k from by omega]
        exact hkval
    · intro k hk
      match k with
      | 0 =>
        have hfe : unused.filter (fun d => result d = some (i0 + 0)) = group := by
          apply Finset.ext
          intro d
          simp only [Finset.mem_filter, Nat.add_zero]
          constructor
          · rintro ⟨hdu, hdval⟩
            rw [← hun] at hdu
            rcases Finset.mem_union.mp hdu with hd | hd
            · exact hd
            · exfalso
              obtain ⟨k2, _, hk2val⟩ := P2 d hd
              rw [hk2val] at hdval
              have := Option.some.inj hdval
              omega
          · intro hd
            exact ⟨hsub_g hd, hgroupval d hd⟩
        rw [hfe]
        constructor
        · show (group.card : ℤ) = (t :: rest).get ⟨0, hk⟩
          exact hgt
        · exact hconn
      | k2 + 1 =>
        have hfe : unused.filter (fun d => result d = some (i0 + (k2 + 1)))
            = unused2.filter (fun d => result d = some ((i0 + 1) + k2)) := by
          apply Finset.ext
          intro d
          simp only [Finset.mem_filter]
          constructor
          · rintro ⟨hdu, hdval⟩
            rw [← hun] at hdu
            rcases Finset.mem_union.mp hdu with hd | hd
            · exfalso
              rw [hgroupval d hd] at hdval
              have := Option.some.inj hdval
              omega
            · refine ⟨hd, ?_⟩
              rw [show (i0 + 1) + k2 = i0 + (k2 + 1) from by omega]
              exact hdval
          · rintro ⟨hdu, hdval⟩
            refine ⟨hsub_u hdu, ?_⟩
            rw [show i0 + (k2 + 1) = (i0 + 1) + k2 from by omega]
            exact hdval
        rw [hfe]
        have hk2 : k2 < rest.length := by
          simp only [List.length_cons] at hk
          omega
        obtain ⟨hsz, hcn⟩ := P3 k2 hk2
        have hget : (t :: rest).get ⟨k2 + 1, hk⟩ = rest.get ⟨k2, hk2⟩ := rfl
        rw [hget]
        exact ⟨hsz, hcn⟩

theorem exceptIsError_iff {ε α : Type} (x : Except ε α) :
    exceptIsError x = true ↔ ∃ e, x = .error e := by
  cases x <;> simp [exceptIsError]

/-- Every successful run of the retry loop is a successful `_try_gluing`
attempt at some derived seed. -/
theorem glueLoop_ok (pick : ℕ → ℕ × ℕ) (seedFn : ℤ → ℕ) (stG : ℕ)
    (adj : ℕ → Finset ℕ) (ts : List ℤ) (n : ℕ) (seed : ℤ) :
    ∀ (rem attempt : ℕ) (result : ℕ → Option ℕ),
    glueLoop pick seedFn stG adj ts n seed attempt rem = .ok result →
    ∃ a : ℕ, tryGluing pick seedFn stG adj ts n (seed + (a : ℤ)) = .ok result := by
  intro rem
  induction rem with
  | zero =>
    intro attempt result h
    simp [glueLoop] at h
  | succ r ih =>
    intro attempt result h
    simp only [glueLoop] at h
    split at h
    · rename_i res heq
      rw [Except.ok.injEq] at h
      subst h
      exact ⟨attempt, heq⟩
    · rename_i e heq
      by_cases hr : r = 0
      · rw [if_pos hr] at h
        simp at h
      · rw [if_neg hr] at h
        exact ih (attempt + 1) result h

/-- When every remaining attempt fails, the loop runs them all and raises the
aggregate error carrying the final attempt's failure. -/
theorem glueLoop_all_error (pick : ℕ → ℕ × ℕ) (seedFn : ℤ → ℕ) (stG : ℕ)
    (adj : ℕ → Finset ℕ) (ts : List ℤ) (n : ℕ) (seed : ℤ) :
    ∀ (rem attempt : ℕ),
    1 ≤ rem → attempt + rem = maxAttempts →
    (∀ a : ℕ, attempt ≤ a → a < maxAttempts →
      exceptIsError (tryGluing pick seedFn stG adj ts n (seed + (a : ℤ))) = true) →
    ∃ e, tryGluing pick seedFn stG adj ts n (seed + ((99 : ℕ) : ℤ)) = .error e ∧
      glueLoop pick seedFn stG adj ts n seed attempt rem
        = .error (.infeasible infeasibleMsg e) := by
  intro rem
  induction rem with
  | zero =>
    intro attempt h1 _ _
    exact absurd h1 (by omega)
  | succ r ih =>
    intro attempt _ hsum hall
    have hatt : attempt < maxAttempts := by omega
    obtain ⟨e, he⟩ := (exceptIsError_iff _).mp (hall attempt le_rfl hatt)
    by_cases hr : r = 0
    · subst hr
      have ha99 : attempt = 99 := by
        unfold maxAttempts at hsum
        omega
      subst ha99
      refine ⟨e, he, ?_⟩
      simp only [glueLoop]
      rw [he]
      rfl
    · have h1 : 1 ≤ r := Nat.one_le_iff_ne_zero.mpr hr
      obtain ⟨e99, he99, hloop⟩ :=
        ih (attempt + 1) h1 (by omega) (fun a ha1 ha2 => hall a (by omega) ha2)
      refine ⟨e99, he99, ?_⟩
      simp only [glueLoop]
      rw [he]
      show (if r = 0 then Except.error (GlueError.infeasible infeasibleMsg e)
        else glueLoop pick seedFn stG adj ts n seed (attempt + 1) r)
        = Except.error (GlueError.infeasible infeasibleMsg e99)
      rw [if_neg hr]
      exact hloop

end FRA

namespace FRA

/-- C1: whenever the target sizes sum to the district count and a gluing
attempt (or the whole engine) succeeds, the result satisfies the partition
invariants: the districts mapped to super-district id `k` number exactly
`target_sizes[k]` and pass `is_connected` under the adjacency used to
produce them, every district id below `num_districts` is mapped to exactly
one super-district id, and no id outside the range is mapped. -/
theorem gluing_success_invariants (pick : ℕ → ℕ × ℕ) (seedFn : ℤ → ℕ)
    (stIn g0 : ℕ) (adj : ℕ → Finset ℕ) (ts : List ℤ) (n : ℕ) (seed : ℤ)
    (result : ℕ → Option ℕ) (hsum : ts.sum = (n : ℤ)) :
    (tryGluing pick seedFn stIn adj ts n seed = .ok result →
      GluingInvariants adj ts n result) ∧
    (glueDistrictsGreedy pick seedFn g0 adj ts n seed = .ok result →
      GluingInvariants adj ts n result) := by
  have hcore : ∀ st : ℕ,
      glueSupers pick adj ts 0 (Finset.range n) (fun _ => none) st = .ok result →
      GluingInvariants adj ts n result := by
    intro st h
    obtain ⟨P1, P2, P3⟩ := glueSupers_ok_spec pick adj ts 0 (Finset.range n)
      (fun _ => none) st result h (fun d _ => rfl)
      (by rw [Finset.card_range]; exact hsum.symm)
    refine ⟨?_, ?_, ?_, ?_⟩
    · intro k hk
      have hthis := P3 k hk
      simpa only [Nat.zero_add] using hthis
    · intro d hd
      obtain ⟨k, hk, hv⟩ := P2 d (Finset.mem_range.mpr hd)
      exact ⟨k, hk, by rwa [Nat.zero_add] at hv⟩
    · intro d k k2 h1 h2
      rw [h1] at h2
      exact Option.some.inj h2
    · intro d hd
      exact P1 d (by simp only [Finset.mem_range]; omega)
  constructor
  · intro h
    exact hcore (seedFn seed) h
  · intro h
    obtain ⟨a, ha⟩ := glueLoop_ok pick seedFn (seedFn seed) adj ts n seed
      maxAttempts 0 result h
    exact hcore (seedFn (seed + a)) ha

/-- C1 witness: on the four-district chain with target sizes `[2, 2]` the
first attempt succeeds and its result carries the invariants. -/
theorem gluing_success_invariants_witness :
    ∃ result, tryGluing pickLin intSeed 0 adjFour [2, 2] 4 0 = .ok result ∧
      GluingInvariants adjFour [2, 2] 4 result := by
  have hok : exceptIsError (tryGluing pickLin intSeed 0 adjFour [2, 2] 4 0)
      = false := by decide
  cases hmatch : tryGluing pickLin intSeed 0 adjFour [2, 2] 4 0 with
  | error e =>
    rw [hmatch] at hok
    simp [exceptIsError] at hok
  | ok r =>
    refine ⟨r, rfl, ?_⟩
    exact (gluing_success_invariants pickLin intSeed 0 0 adjFour [2, 2] 4 0 r
      (by decide)).1 hmatch

/-- With target sizes `[3, 1]` and 3 districts, every single attempt fails:
a success would force `3 = max 1 3 + 1 = 4`. -/
theorem tryGluing_31_fails (pick : ℕ → ℕ × ℕ) (seedFn : ℤ → ℕ) (stG : ℕ)
    (adj : ℕ → Finset ℕ) (seed : ℤ) :
    exceptIsError (tryGluing pick seedFn stG adj [3, 1] 3 seed) = true := by
  cases hmatch : tryGluing pick seedFn stG adj [3, 1] 3 seed with
  | error e => rfl
  | ok r =>
    exfalso
    have hmatch2 : glueSupers pick adj [3, 1] 0 (Finset.range 3)
        (fun _ => none) (seedFn seed) = .ok r := hmatch
    have hcard := glueSupers_cons_ok_card pick adj hmatch2
    rw [Finset.card_range] at hcard
    norm_num at hcard

/-- C2 amended: the engine performs no configuration validation and has no
`InvalidConfiguration` error.  With `target_sizes = [3, 1]` and
`num_districts = 3` (the spec's sum-mismatch scenario) it runs its attempt
loop to exhaustion and raises the generic infeasibility error; with an empty
`target_sizes` list it instead returns the empty assignment successfully,
whatever `num_districts` is. -/
theorem glue_sum_mismatch_behavior (pick : ℕ → ℕ × ℕ) (seedFn : ℤ → ℕ)
    (g0 : ℕ) (adj : ℕ → Finset ℕ) (seed : ℤ) :
    (∃ e, glueDistrictsGreedy pick seedFn g0 adj [3, 1] 3 seed
      = .error (.infeasible infeasibleMsg e)) ∧
    (∀ n : ℕ, glueDistrictsGreedy pick seedFn g0 adj [] n seed
      = .ok (fun _ => none)) := by
  constructor
  · obtain ⟨e, _, hloop⟩ := glueLoop_all_error pick seedFn (seedFn seed) adj
      [3, 1] 3 seed maxAttempts 0 (by norm_num [maxAttempts]) (by omega)
      (fun a _ _ => tryGluing_31_fails pick seedFn (seedFn seed) adj (seed + (a : ℤ)))
    exact ⟨e, hloop⟩
  · intro n
    rfl

/-- C8: when every attempt's `_try_gluing` call fails — attempt `a` running
with derived seed `seed + a` — the engine performs all `maxAttempts = 100`
attempts and then fails with the single aggregate error kind, whose cause is
the final (100th) attempt's failure reason; no per-attempt abort reaches the
caller as a distinct error kind. -/
theorem glueDistrictsGreedy_exhausts (pick : ℕ → ℕ × ℕ) (seedFn : ℤ → ℕ)
    (g0 : ℕ) (adj : ℕ → Finset ℕ) (ts : List ℤ) (n : ℕ) (seed : ℤ)
    (h : ∀ a : ℕ, a < maxAttempts →
      exceptIsError (tryGluing pick seedFn (seedFn seed) adj ts n
        (seed + (a : ℤ))) = true) :
    ∃ e, tryGluing pick seedFn (seedFn seed) adj ts n
        (seed + ((99 : ℕ) : ℤ)) = .error e ∧
      glueDistrictsGreedy pick seedFn g0 adj ts n seed
        = .error (.infeasible infeasibleMsg e) := by
  obtain ⟨e, he, hloop⟩ := glueLoop_all_error pick seedFn (seedFn seed) adj ts n
    seed maxAttempts 0 (by norm_num [maxAttempts]) (by omega)
    (fun a _ ha => h a ha)
  exact ⟨e, he, hloop⟩

/-- C8 witness: with no adjacency at all (the spec's fully disconnected
scenario, 4 districts, targets `[2, 2]`), every attempt fails and the engine
returns the aggregate infeasibility error caused by the last attempt. -/
theorem glueDistrictsGreedy_exhausts_witness :
    ∃ e, tryGluing pickLin intSeed (intSeed 0) (fun _ => ∅) [2, 2] 4
        ((0 : ℤ) + ((99 : ℕ) : ℤ)) = .error e ∧
      glueDistrictsGreedy pickLin intSeed 0 (fun _ => ∅) [2, 2] 4 0
        = .error (.infeasible infeasibleMsg e) :=
  glueDistrictsGreedy_exhausts pickLin intSeed 0 (fun _ => ∅) [2, 2] 4 0
    (by decide)

end FRA

namespace FRA

/-! ## Aggregation lemmas -/

theorem lookupFst_isSome_iff (l : List (ℕ × ℕ)) (a : ℕ) :
    (lookupFst l a).isSome = true ↔ a ∈ l.map Prod.fst := by
  induction l with
  | nil => simp [lookupFst]
  | cons pr rest ih =>
    obtain ⟨k, v⟩ := pr
    by_cases hk : k = a
    · simp [lookupFst, hk]
    · rw [show lookupFst ((k, v) :: rest) a = lookupFst rest a from if_neg hk]
      rw [List.map_cons, List.mem_cons]
      constructor
      · intro hsome
        exact Or.inr (ih.mp hsome)
      · rintro (hcontra | hmem)
        · exact absurd hcontra.symm hk
        · exact ih.mpr hmem

theorem lookupFst_eq_none (l : List (ℕ × ℕ)) (a : ℕ)
    (h : a ∉ l.map Prod.fst) : lookupFst l a = none := by
  cases hval : lookupFst l a with
  | none => rfl
  | some v =>
    exfalso
    exact h ((lookupFst_isSome_iff l a).mp (by rw [hval]; rfl))

theorem buildP2S_ok_keys (d2s : ℕ → Option ℕ) :
    ∀ {assignment : List (ℕ × ℕ)} {p2s : List (ℕ × ℕ)},
    buildP2S assignment d2s = .ok p2s →
    p2s.map Prod.fst = assignment.map Prod.fst := by
  intro assignment
  induction assignment with
  | nil =>
    intro p2s h
    simp only [buildP2S, Except.ok.injEq] at h
    subst h
    rfl
  | cons pr rest ih =>
    intro p2s h
    obtain ⟨p, dd⟩ := pr
    simp only [buildP2S] at h
    cases hd : d2s dd with
    | none => rw [hd] at h; simp at h
    | some s =>
      rw [hd] at h
      cases hrest : buildP2S rest d2s with
      | error e => rw [hrest] at h; simp [Except.map] at h
      | ok l =>
        rw [hrest] at h
        simp only [Except.map, Except.ok.injEq] at h
        subst h
        simp only [List.map_cons]
        rw [ih hrest]

theorem buildP2S_ok_of (d2s : ℕ → Option ℕ) :
    ∀ (assignment : List (ℕ × ℕ)),
    (∀ pr ∈ assignment, (d2s pr.2).isSome) →
    ∃ p2s, buildP2S assignment d2s = .ok p2s := by
  intro assignment
  induction assignment with
  | nil => exact fun _ => ⟨[], rfl⟩
  | cons pr rest ih =>
    intro h
    obtain ⟨p, dd⟩ := pr
    obtain ⟨s, hs⟩ := Option.isSome_iff_exists.mp (h (p, dd) (List.mem_cons_self _ _))
    obtain ⟨l, hl⟩ := ih (fun pr2 hpr2 => h pr2 (List.mem_cons_of_mem _ hpr2))
    refine ⟨(p, s) :: l, ?_⟩
    simp only [buildP2S]
    rw [hs, hl]
    rfl

theorem buildP2S_error_of (d2s : ℕ → Option ℕ) :
    ∀ (assignment : List (ℕ × ℕ)),
    (∃ pr ∈ assignment, d2s pr.2 = none) →
    ∃ e, buildP2S assignment d2s = .error e := by
  intro assignment
  induction assignment with
  | nil => rintro ⟨pr, hpr, -⟩; exact absurd hpr (List.not_mem_nil pr)
  | cons hd2 rest ih =>
    rintro ⟨pr, hpr, hnone⟩
    obtain ⟨p, dd⟩ := hd2
    cases hd : d2s dd with
    | none => exact ⟨_, by simp only [buildP2S]; rw [hd]⟩
    | some s =>
      rcases List.mem_cons.mp hpr with hpr | hpr
      · exfalso
        subst hpr
        rw [hnone] at hd
        cases hd
      · obtain ⟨e, he⟩ := ih ⟨pr, hpr, hnone⟩
        refine ⟨e, ?_⟩
        simp only [buildP2S]
        rw [hd, he]
        rfl

theorem updateAgg_sums (sid : ℕ) (u : BaseUnit) :
    ∀ (acc : List (ℕ × SuperAgg)),
    ((updateAgg acc sid u).map (fun x => x.2.population)).sum
      = (acc.map (fun x => x.2.population)).sum + u.pop ∧
    ((updateAgg acc sid u).map (fun x => x.2.demVotes)).sum
      = (acc.map (fun x => x.2.demVotes)).sum + u.dem ∧
    ((updateAgg acc sid u).map (fun x => x.2.repVotes)).sum
      = (acc.map (fun x => x.2.repVotes)).sum + u.rep := by
  intro acc
  induction acc with
  | nil => refine ⟨?_, ?_, ?_⟩ <;> simp [updateAgg]
  | cons pr rest ih =>
    obtain ⟨s, a⟩ := pr
    by_cases hs : s = sid
    · refine ⟨?_, ?_, ?_⟩ <;> (simp [updateAgg, hs]; ring)
    · refine ⟨?_, ?_, ?_⟩ <;>
        (simp [updateAgg, hs, ih.1, ih.2.1, ih.2.2]; ring)

theorem aggFold_sums (p2s : List (ℕ × ℕ)) :
    ∀ (units : List BaseUnit) (acc : List (ℕ × SuperAgg)),
    (∀ u ∈ units, u.id ∈ p2s.map Prod.fst) →
    ((units.foldl (fun acc2 u =>
        match lookupFst p2s u.id with
        | some sid => updateAgg acc2 sid u
        | none => acc2) acc).map (fun x => x.2.population)).sum
      = (acc.map (fun x => x.2.population)).sum + (units.map (fun u => u.pop)).sum ∧
    ((units.foldl (fun acc2 u =>
        match lookupFst p2s u.id with
        | some sid => updateAgg acc2 sid u
        | none => acc2) acc).map (fun x => x.2.demVotes)).sum
      = (acc.map (fun x => x.2.demVotes)).sum + (units.map (fun u => u.dem)).sum ∧
    ((units.foldl (fun acc2 u =>
        match lookupFst p2s u.id with
        | some sid => updateAgg acc2 sid u
        | none => acc2) acc).map (fun x => x.2.repVotes)).sum
      = (acc.map (fun x => x.2.repVotes)).sum + (units.map (fun u => u.rep)).sum := by
  intro units
  induction units with
  | nil => intro acc _; refine ⟨?_, ?_, ?_⟩ <;> simp
  | cons u rest ih =>
    intro acc hcov
    have hu : u.id ∈ p2s.map Prod.fst := hcov u (List.mem_cons_self _ _)
    obtain ⟨sid, hsid⟩ := Option.isSome_iff_exists.mp
      ((lookupFst_isSome_iff p2s u.id).mpr hu)
    rw [List.foldl_cons]
    obtain ⟨i1, i2, i3⟩ := ih (updateAgg acc sid u)
      (fun v hv => hcov v (List.mem_cons_of_mem _ hv))
    obtain ⟨u1, u2, u3⟩ := updateAgg_sums sid u acc
    refine ⟨?_, ?_, ?_⟩ <;>
      (rw [show (match lookupFst p2s u.id with
          | some sid => updateAgg acc sid u
          | none => acc) = updateAgg acc sid u from by rw [hsid]]) <;>
      simp only [List.map_cons, List.sum_cons]
    · rw [i1, u1]; ring
    · rw [i2, u2]; ring
    · rw [i3, u3]; ring

theorem finalizeAgg_sums (agg : List (ℕ × SuperAgg)) :
    ((finalizeAgg agg).map (fun r => r.population)).sum
      = (agg.map (fun x => x.2.population)).sum ∧
    ((finalizeAgg agg).map (fun r => r.demVotes)).sum
      = (agg.map (fun x => x.2.demVotes)).sum ∧
    ((finalizeAgg agg).map (fun r => r.repVotes)).sum
      = (agg.map (fun x => x.2.repVotes)).sum := by
  unfold finalizeAgg
  refine ⟨?_, ?_, ?_⟩ <;> rw [List.map_map] <;> rfl

/-- C6: when the baseline assignment covers every base unit and the gluing
result covers every assigned district, aggregation succeeds and preserves
the grand totals of population and of each party's votes. -/
theorem aggregate_sum_preserving (units : List BaseUnit)
    (assignment : List (ℕ × ℕ)) (d2s : ℕ → Option ℕ)
    (h1 : ∀ u ∈ units, u.id ∈ assignment.map Prod.fst)
    (h2 : ∀ pr ∈ assignment, (d2s pr.2).isSome) :
    ∃ recs, aggregatePrecinctsToSuperdistricts units assignment d2s = .ok recs ∧
      (recs.map (fun r => r.population)).sum = (units.map (fun u => u.pop)).sum ∧
      (recs.map (fun r => r.demVotes)).sum = (units.map (fun u => u.dem)).sum ∧
      (recs.map (fun r => r.repVotes)).sum = (units.map (fun u => u.rep)).sum := by
  obtain ⟨p2s, hp2s⟩ := buildP2S_ok_of d2s assignment h2
  have hkeys := buildP2S_ok_keys d2s hp2s
  obtain ⟨s1, s2, s3⟩ := aggFold_sums p2s units []
    (fun u hu => by rw [hkeys]; exact h1 u hu)
  obtain ⟨f1, f2, f3⟩ := finalizeAgg_sums (aggLoop p2s units)
  refine ⟨finalizeAgg (aggLoop p2s units), ?_, ?_, ?_, ?_⟩
  · unfold aggregatePrecinctsToSuperdistricts
    rw [hp2s]
    rfl
  · rw [f1]; unfold aggLoop; rw [s1]; simp
  · rw [f2]; unfold aggLoop; rw [s2]; simp
  · rw [f3]; unfold aggLoop; rw [s3]; simp

/-- C6 witness: two base units in one district glued into super-district 0:
the totals are preserved. -/
theorem aggregate_sum_preserving_witness :
    ∃ recs, aggregatePrecinctsToSuperdistricts
        [⟨0, 3, 4, 10⟩, ⟨1, 1, 1, 5⟩] [(0, 0), (1, 0)] d2sEx = .ok recs ∧
      (recs.map (fun r => r.population)).sum
        = (([⟨0, 3, 4, 10⟩, ⟨1, 1, 1, 5⟩] : List BaseUnit).map (fun u => u.pop)).sum ∧
      (recs.map (fun r => r.demVotes)).sum
        = (([⟨0, 3, 4, 10⟩, ⟨1, 1, 1, 5⟩] : List BaseUnit).map (fun u => u.dem)).sum ∧
      (recs.map (fun r => r.repVotes)).sum
        = (([⟨0, 3, 4, 10⟩, ⟨1, 1, 1, 5⟩] : List BaseUnit).map (fun u => u.rep)).sum :=
  aggregate_sum_preserving [⟨0, 3, 4, 10⟩, ⟨1, 1, 1, 5⟩] [(0, 0), (1, 0)] d2sEx
    (by decide) (by decide)

/-- C10: a base unit whose id is absent from the baseline assignment is
silently dropped — aggregating with it gives exactly the same output as
aggregating without it, with no error — while a district id that appears in
the assignment but is missing from the gluing result makes aggregation fail
(the `KeyError` raised while building `precinct_to_super`, before any unit is
accumulated). -/
theorem aggregate_missing_unit_skipped :
    (∀ (units : List BaseUnit) (assignment : List (ℕ × ℕ))
      (d2s : ℕ → Option ℕ) (u : BaseUnit),
      (∀ pr ∈ assignment, pr.1 ≠ u.id) →
      aggregatePrecinctsToSuperdistricts (u :: units) assignment d2s
        = aggregatePrecinctsToSuperdistricts units assignment d2s) ∧
    (∀ (units : List BaseUnit) (assignment : List (ℕ × ℕ))
      (d2s : ℕ → Option ℕ) (pr : ℕ × ℕ),
      pr ∈ assignment → d2s pr.2 = none →
      ∃ e, aggregatePrecinctsToSuperdistricts units assignment d2s = .error e) := by
  constructor
  · intro units assignment d2s u h
    unfold aggregatePrecinctsToSuperdistricts
    cases hbuild : buildP2S assignment d2s with
    | error e => rfl
    | ok p2s =>
      have hkeys := buildP2S_ok_keys d2s hbuild
      have hnotin : u.id ∉ p2s.map Prod.fst := by
        rw [hkeys]
        intro hcontra
        obtain ⟨pr, hpr, hfst⟩ := List.mem_map.mp hcontra
        exact h pr hpr hfst
      have hnone := lookupFst_eq_none p2s u.id hnotin
      show Except.ok (finalizeAgg (aggLoop p2s (u :: units)))
        = Except.ok (finalizeAgg (aggLoop p2s units))
      have hloop : aggLoop p2s (u :: units) = aggLoop p2s units := by
        unfold aggLoop
        rw [List.foldl_cons]
        rw [show (match lookupFst p2s u.id with
            | some sid => updateAgg [] sid u
            | none => ([] : List (ℕ × SuperAgg))) = [] from by rw [hnone]]
      rw [hloop]
  · intro units assignment d2s pr hpr hnone
    obtain ⟨e, he⟩ := buildP2S_error_of d2s assignment ⟨pr, hpr, hnone⟩
    refine ⟨e, ?_⟩
    unfold aggregatePrecinctsToSuperdistricts
    rw [he]
    rfl

/-- C10 witness: a unit with id 5 absent from the assignment is skipped
without error; an assignment entry whose district 9 is missing from the
gluing result fails. -/
theorem aggregate_missing_unit_skipped_witness :
    aggregatePrecinctsToSuperdistricts [⟨5, 1, 2, 3⟩] [(0, 0)] d2sEx
      = aggregatePrecinctsToSuperdistricts [] [(0, 0)] d2sEx ∧
    ∃ e, aggregatePrecinctsToSuperdistricts [] [(0, 9)] d2sEx = .error e :=
  ⟨aggregate_missing_unit_skipped.1 [] [(0, 0)] d2sEx ⟨5, 1, 2, 3⟩ (by decide),
   aggregate_missing_unit_skipped.2 [] [(0, 9)] d2sEx (0, 9)
     (List.mem_singleton.mpr rfl) rfl⟩

end FRA

namespace FRA

/-- The inner neighbour fold of `build_district_adjacency` never creates key
`d` or touches its neighbour set when no crossing pair involves `d`. -/
theorem buildAdj_inner_untouched (assignment : ℕ → ℕ) (p d : ℕ) :
    ∀ (ns : List ℕ) (da : DistAdjDict),
    (∀ nb ∈ ns, assignment p ≠ assignment nb →
      assignment p ≠ d ∧ assignment nb ≠ d) →
    d ∉ da.keys → da.nbrs d = ∅ →
    d ∉ (ns.foldl
        (fun da2 nb =>
          if assignment p ≠ assignment nb then
            addDirected (addDirected da2 (assignment p) (assignment nb))
              (assignment nb) (assignment p)
          else da2)
        da).keys ∧
    (ns.foldl
        (fun da2 nb =>
          if assignment p ≠ assignment nb then
            addDirected (addDirected da2 (assignment p) (assignment nb))
              (assignment nb) (assignment p)
          else da2)
        da).nbrs d = ∅ := by
  intro ns
  induction ns with
  | nil => intro da _ h1 h2; exact ⟨h1, h2⟩
  | cons nb rest ih =>
    intro da hsafe h1 h2
    rw [List.foldl_cons]
    by_cases hne : assignment p ≠ assignment nb
    · rw [if_pos hne]
      obtain ⟨hpd, hnd⟩ := hsafe nb (List.mem_cons_self _ _) hne
      apply ih _ (fun x hx => hsafe x (List.mem_cons_of_mem _ hx))
      · show d ∉ insert (assignment nb) (insert (assignment p) da.keys)
        intro hmem
        rcases Finset.mem_insert.mp hmem with hmem | hmem
        · exact hnd hmem.symm
        · rcases Finset.mem_insert.mp hmem with hmem | hmem
          · exact hpd hmem.symm
          · exact h1 hmem
      · show (if d = assignment nb then _ else
            if d = assignment p then _ else da.nbrs d) = ∅
        rw [if_neg (fun hc => hnd hc.symm), if_neg (fun hc => hpd hc.symm)]
        exact h2
    · rw [if_neg hne]
      exact ih da (fun x hx => hsafe x (List.mem_cons_of_mem _ hx)) h1 h2

/-- C3 amended: a district with no edge to a different district is *absent*
from the dict built by `build_district_adjacency` (the `defaultdict` only
ever receives districts involved in a crossing pair); its neighbour set, as
read through the `.get(d, set())` access every consumer uses, is
nevertheless empty. -/
theorem isolated_district_absent (precinctAdj : List (ℕ × List ℕ))
    (assignment : ℕ → ℕ) (d : ℕ)
    (h : ¬ HasCrossEdge precinctAdj assignment d) :
    d ∉ (buildDistrictAdjacency precinctAdj assignment).keys ∧
    (buildDistrictAdjacency precinctAdj assignment).nbrs d = ∅ := by
  have hsafe : ∀ pr ∈ precinctAdj, ∀ nb ∈ pr.2,
      assignment pr.1 ≠ assignment nb →
      assignment pr.1 ≠ d ∧ assignment nb ≠ d := by
    intro pr hpr nb hnb hne
    constructor
    · intro hc
      exact h ⟨pr, hpr, nb, hnb, hne, Or.inl hc⟩
    · intro hc
      exact h ⟨pr, hpr, nb, hnb, hne, Or.inr hc⟩
  unfold buildDistrictAdjacency
  suffices H : ∀ (l : List (ℕ × List ℕ)) (da : DistAdjDict),
      (∀ pr ∈ l, ∀ nb ∈ pr.2, assignment pr.1 ≠ assignment nb →
        assignment pr.1 ≠ d ∧ assignment nb ≠ d) →
      d ∉ da.keys → da.nbrs d = ∅ →
      d ∉ (l.foldl
          (fun da pr =>
            pr.2.foldl
              (fun da2 nb =>
                if assignment pr.1 ≠ assignment nb then
                  addDirected (addDirected da2 (assignment pr.1) (assignment nb))
                    (assignment nb) (assignment pr.1)
                else da2)
              da)
          da).keys ∧
      (l.foldl
          (fun da pr =>
            pr.2.foldl
              (fun da2 nb =>
                if assignment pr.1 ≠ assignment nb then
                  addDirected (addDirected da2 (assignment pr.1) (assignment nb))
                    (assignment nb) (assignment pr.1)
                else da2)
              da)
          da).nbrs d = ∅ by
    exact H precinctAdj ⟨∅, fun _ => ∅⟩ hsafe (Finset.not_mem_empty d) rfl
  intro l
  induction l with
  | nil => intro da _ h1 h2; exact ⟨h1, h2⟩
  | cons pr rest ih =>
    intro da hsafe2 h1 h2
    rw [List.foldl_cons]
    obtain ⟨h1b, h2b⟩ := buildAdj_inner_untouched assignment pr.1 d pr.2 da
      (hsafe2 pr (List.mem_cons_self _ _)) h1 h2
    exact ih _ (fun pr2 hpr2 => hsafe2 pr2 (List.mem_cons_of_mem _ hpr2)) h1b h2b

/-- C3 amended witness: two precincts of the same district with an internal
boundary — the district has no cross-district edge and is absent with an
empty neighbour set. -/
theorem isolated_district_absent_witness :
    0 ∉ (buildDistrictAdjacency [(0, [1]), (1, [0])] (fun _ => 0)).keys ∧
    (buildDistrictAdjacency [(0, [1]), (1, [0])] (fun _ => 0)).nbrs 0 = ∅ :=
  isolated_district_absent [(0, [1]), (1, [0])] (fun _ => 0) 0 (by
    rintro ⟨pr, hpr, nb, hnb, hne, hor⟩
    exact hne rfl)

end FRA
